import Mathlib

set_option maxHeartbeats 1000000

/-!
# Shallow embedding of `setanarut/maze` (maze.go)

The source is a DFS maze generator writing a pixel occupancy grid
(`0` = open path, `1` = wall).  Go slices become lists, Go `int` becomes
`Int`, and a slice access that can panic is modelled in `Option`
(`none` = index-out-of-range panic).  The seeded PCG random source
(`math/rand/v2`, external library code) is modelled abstractly: each call
to `Rnd.Perm(4)` draws the next element of a stream
`perms : Nat → List Nat` that is a deterministic function of the seed
pair, and the state keeps the draw counter in the field `Rnd`.
-/

/-- The `Maze` struct of maze.go.  `Rnd` is the number of `Perm(4)` draws
consumed so far by the current random source (the stream itself is passed
to `dfs` as the `perms` argument). -/
structure Maze where
  Grid : List (List Int)
  Visited : List (List Bool)
  Rnd : Nat
  CellSize : Int
  WallThickness : Int
  Cols : Int
  Rows : Int
deriving DecidableEq

/-- Read `v[r][c]` with Go slice-index semantics: `none` models an
index-out-of-range panic (negative index or index beyond the length). -/
def idx2 {α : Type} (v : List (List α)) (r c : Int) : Option α :=
  if 0 ≤ r ∧ 0 ≤ c then (v[r.toNat]?).bind fun row => row[c.toNat]? else none

/-- The write `m.Visited[r][c] = true` of `dfs`; `none` models the panic. -/
def setVis (v : List (List Bool)) (r c : Int) : Option (List (List Bool)) :=
  if 0 ≤ r ∧ 0 ≤ c then
    match v[r.toNat]? with
    | some row => if c.toNat < row.length then some (v.set r.toNat (row.set c.toNat true)) else none
    | none => none
  else none

/-- One guarded pixel write of `dfs`:
`if wy >= 0 && wy < len(m.Grid) && wx >= 0 && wx < len(m.Grid[0]) { m.Grid[wy][wx] = val }`.
(Go's `&&` short-circuits, so `m.Grid[0]` is only read when the grid is
nonempty; `headD` reproduces that.) -/
def gridSet (g : List (List Int)) (wy wx val : Int) : List (List Int) :=
  if 0 ≤ wy ∧ wy < (g.length : Int) ∧ 0 ≤ wx ∧ wx < ((g.headD []).length : Int) then
    g.set wy.toNat ((g.getD wy.toNat []).set wx.toNat val)
  else g

/-- Row-major double loop of `dfs`:
`for y := range ny { for x := range nx { write grid[y0+y][x0+x] = 0 } }`.
Used for the cell fill and the left/right wall openings. -/
def fillYX (g : List (List Int)) (y0 : Int) (ny : Nat) (x0 : Int) (nx : Nat) :
    List (List Int) :=
  (List.range ny).foldl (fun g1 (y : Nat) =>
    (List.range nx).foldl (fun g2 (x : Nat) => gridSet g2 (y0 + (y : Int)) (x0 + (x : Int)) 0) g1) g

/-- Column-major double loop of `dfs`:
`for x := range nx { for y := range ny { write grid[y0+y][x0+x] = 0 } }`.
Used for the up/down wall openings. -/
def fillXY (g : List (List Int)) (y0 : Int) (ny : Nat) (x0 : Int) (nx : Nat) :
    List (List Int) :=
  (List.range nx).foldl (fun g1 (x : Nat) =>
    (List.range ny).foldl (fun g2 (y : Nat) => gridSet g2 (y0 + (y : Int)) (x0 + (x : Int)) 0) g1) g

/-- The direction loop of `dfs` (`for _, dir := range dirs { switch dir ... }`).
`recur` is the recursive call into an unvisited neighbour; `dfs` below passes
itself at one smaller fuel, which makes the recursion structural.  Each arm
mirrors the corresponding `case` of the Go `switch`: bounds guard, visited
check (a read that can panic), the wall-opening fill, then the recursive
call.  A direction value outside 0..3 matches no `case` and is skipped. -/
def dfsDirs (recur : Maze → Int → Int → Option Maze) (m : Maze)
    (r c startY startX : Int) : List Nat → Option Maze
  | [] => some m
  | d :: rest =>
    let step : Option Maze :=
      match d with
      | 0 =>
        let nr := r - 1
        let nc := c
        if 0 ≤ nr then
          match idx2 m.Visited nr nc with
          | none => none
          | some b =>
            if b then some m
            else
              let g := fillXY m.Grid (startY - m.WallThickness) m.WallThickness.toNat
                startX m.CellSize.toNat
              recur { m with Grid := g } nr nc
        else some m
      | 1 =>
        let nr := r
        let nc := c - 1
        if 0 ≤ nc then
          match idx2 m.Visited nr nc with
          | none => none
          | some b =>
            if b then some m
            else
              let g := fillYX m.Grid startY m.CellSize.toNat
                (startX - m.WallThickness) m.WallThickness.toNat
              recur { m with Grid := g } nr nc
        else some m
      | 2 =>
        let nr := r + 1
        let nc := c
        if nr < m.Rows then
          match idx2 m.Visited nr nc with
          | none => none
          | some b =>
            if b then some m
            else
              let g := fillXY m.Grid (startY + m.CellSize) m.WallThickness.toNat
                startX m.CellSize.toNat
              recur { m with Grid := g } nr nc
        else some m
      | 3 =>
        let nr := r
        let nc := c + 1
        if nc < m.Cols then
          match idx2 m.Visited nr nc with
          | none => none
          | some b =>
            if b then some m
            else
              let g := fillYX m.Grid startY m.CellSize.toNat
                (startX + m.CellSize) m.WallThickness.toNat
              recur { m with Grid := g } nr nc
        else some m
      | _ + 4 => some m
    match step with
    | none => none
    | some m4 => dfsDirs recur m4 r c startY startX rest

/-- The recursive `dfs` of maze.go.  Marks the cell visited (a write that can
panic), fills its `CellSize × CellSize` pixel block, draws the next direction
permutation, and tries the four directions in the drawn order.  `fuel` bounds
the recursion depth; `Generate` supplies `Rows*Cols + 1`, and the depth-bound
theorem below shows `Rows*Cols` already suffices, so the fuel-exhausted branch
is never taken on a run of the source program. -/
def dfs (perms : Nat → List Nat) : Nat → Maze → Int → Int → Option Maze
  | 0, _, _, _ => none
  | fuel + 1, m, r, c =>
    match setVis m.Visited r c with
    | none => none
    | some vis =>
      let m1 : Maze := { m with Visited := vis }
      let startY := m1.WallThickness + r * (m1.CellSize + m1.WallThickness)
      let startX := m1.WallThickness + c * (m1.CellSize + m1.WallThickness)
      let m2 : Maze := { m1 with
        Grid := fillYX m1.Grid startY m1.CellSize.toNat startX m1.CellSize.toNat }
      let dirs := perms m2.Rnd
      let m3 : Maze := { m2 with Rnd := m2.Rnd + 1 }
      dfsDirs (dfs perms fuel) m3 r c startY startX dirs

/-- The reset phase of `Generate`: fresh random source (draw counter back to
zero; a new seed pair means a new `perms` stream), every pixel back to wall,
every visited flag cleared.  Row-by-row `map` keeps the exact allocated shape,
like the Go in-place loops. -/
def resetM (m : Maze) : Maze :=
  { m with
    Rnd := 0
    Grid := m.Grid.map fun row => row.map fun _ => (1 : Int)
    Visited := m.Visited.map fun row => row.map fun _ => false }

/-- `Generate(seed1, seed2)` of maze.go: reseed, reset, then carve from cell
(0,0).  The permutation stream `perms` stands for the seed pair. -/
def Generate (m : Maze) (perms : Nat → List Nat) : Option Maze :=
  dfs perms (m.Rows.toNat * m.Cols.toNat + 1) (resetM m) 0 0

/-- `NewMaze(w, h, cellSize, wallThickness)` of maze.go: allocate the pixel
grid and the visited matrix from the configuration.  (Go's `make` panics on a
negative length; no theorem below constructs a maze with negative sizes.) -/
def NewMaze (w h cellSize wallThickness : Int) : Maze :=
  let R := h * cellSize + (h + 1) * wallThickness
  let C := w * cellSize + (w + 1) * wallThickness
  { Grid := List.replicate R.toNat (List.replicate C.toNat 0)
    Visited := List.replicate h.toNat (List.replicate w.toNat false)
    Rnd := 0
    CellSize := cellSize
    WallThickness := wallThickness
    Cols := w
    Rows := h }

/-- `Size()` from the repository's rect-variant source file: the pixel
(width, height) of the maze as a function of the configuration. -/
def Size (m : Maze) : Int × Int :=
  (m.Cols * m.CellSize + (m.Cols + 1) * m.WallThickness,
   m.Rows * m.CellSize + (m.Rows + 1) * m.WallThickness)

example :
    (Generate (NewMaze 2 1 1 1) (fun _ => [0, 1, 2, 3])).map (fun m => m.Grid) =
      some [[1, 1, 1, 1, 1], [1, 0, 0, 0, 1], [1, 1, 1, 1, 1]] := by decide

example : Generate (NewMaze 0 5 3 1) (fun _ => [0, 1, 2, 3]) = none := by decide

/-! ## A bounds-checked variant of the pixel writes

`dfsChk` is `dfs` with every guarded pixel write replaced by a write that
*fails* (like an unguarded Go slice write would) when the coordinate is
outside the grid.  Proving `dfsChk` and `dfs` agree shows the defensive
bounds guards of the source never actually reject a pixel. -/

/-- An unguarded pixel write: out-of-bounds coordinates fail instead of
being skipped. -/
def gridSetChk (g : List (List Int)) (wy wx val : Int) : Option (List (List Int)) :=
  if 0 ≤ wy ∧ wy < (g.length : Int) ∧ 0 ≤ wx ∧ wx < ((g.headD []).length : Int) then
    some (g.set wy.toNat ((g.getD wy.toNat []).set wx.toNat val))
  else none

/-- `fillYX` with failing writes. -/
def fillYXChk (g : List (List Int)) (y0 : Int) (ny : Nat) (x0 : Int) (nx : Nat) :
    Option (List (List Int)) :=
  (List.range ny).foldlM (fun g1 (y : Nat) =>
    (List.range nx).foldlM (fun g2 (x : Nat) => gridSetChk g2 (y0 + (y : Int)) (x0 + (x : Int)) 0) g1) g

/-- `fillXY` with failing writes. -/
def fillXYChk (g : List (List Int)) (y0 : Int) (ny : Nat) (x0 : Int) (nx : Nat) :
    Option (List (List Int)) :=
  (List.range nx).foldlM (fun g1 (x : Nat) =>
    (List.range ny).foldlM (fun g2 (y : Nat) => gridSetChk g2 (y0 + (y : Int)) (x0 + (x : Int)) 0) g1) g

/-- The direction loop of `dfsChk`. -/
def dfsDirsChk (recur : Maze → Int → Int → Option Maze) (m : Maze)
    (r c startY startX : Int) : List Nat → Option Maze
  | [] => some m
  | d :: rest =>
    let step : Option Maze :=
      match d with
      | 0 =>
        let nr := r - 1
        let nc := c
        if 0 ≤ nr then
          match idx2 m.Visited nr nc with
          | none => none
          | some b =>
            if b then some m
            else
              match fillXYChk m.Grid (startY - m.WallThickness) m.WallThickness.toNat
                startX m.CellSize.toNat with
              | none => none
              | some g => recur { m with Grid := g } nr nc
        else some m
      | 1 =>
        let nr := r
        let nc := c - 1
        if 0 ≤ nc then
          match idx2 m.Visited nr nc with
          | none => none
          | some b =>
            if b then some m
            else
              match fillYXChk m.Grid startY m.CellSize.toNat
                (startX - m.WallThickness) m.WallThickness.toNat with
              | none => none
              | some g => recur { m with Grid := g } nr nc
        else some m
      | 2 =>
        let nr := r + 1
        let nc := c
        if nr < m.Rows then
          match idx2 m.Visited nr nc with
          | none => none
          | some b =>
            if b then some m
            else
              match fillXYChk m.Grid (startY + m.CellSize) m.WallThickness.toNat
                startX m.CellSize.toNat with
              | none => none
              | some g => recur { m with Grid := g } nr nc
        else some m
      | 3 =>
        let nr := r
        let nc := c + 1
        if nc < m.Cols then
          match idx2 m.Visited nr nc with
          | none => none
          | some b =>
            if b then some m
            else
              match fillYXChk m.Grid startY m.CellSize.toNat
                (startX + m.CellSize) m.WallThickness.toNat with
              | none => none
              | some g => recur { m with Grid := g } nr nc
        else some m
      | _ + 4 => some m
    match step with
    | none => none
    | some m4 => dfsDirsChk recur m4 r c startY startX rest

/-- `dfs` with failing instead of skipping out-of-bounds pixel writes. -/
def dfsChk (perms : Nat → List Nat) : Nat → Maze → Int → Int → Option Maze
  | 0, _, _, _ => none
  | fuel + 1, m, r, c =>
    match setVis m.Visited r c with
    | none => none
    | some vis =>
      let m1 : Maze := { m with Visited := vis }
      let startY := m1.WallThickness + r * (m1.CellSize + m1.WallThickness)
      let startX := m1.WallThickness + c * (m1.CellSize + m1.WallThickness)
      match fillYXChk m1.Grid startY m1.CellSize.toNat startX m1.CellSize.toNat with
      | none => none
      | some g =>
        let m2 : Maze := { m1 with Grid := g }
        let dirs := perms m2.Rnd
        let m3 : Maze := { m2 with Rnd := m2.Rnd + 1 }
        dfsDirsChk (dfsChk perms fuel) m3 r c startY startX dirs

/-- `Generate` with failing writes. -/
def GenerateChk (m : Maze) (perms : Nat → List Nat) : Option Maze :=
  dfsChk perms (m.Rows.toNat * m.Cols.toNat + 1) (resetM m) 0 0

/-! ## Specification-side notions: shapes, geometry, cell graph -/

/-- Uniform matrix shape: `R` rows, every row of length `C`. -/
def Unif {α : Type} (g : List (List α)) (R C : Nat) : Prop :=
  g.length = R ∧ ∀ row ∈ g, row.length = C

/-- Pixel height of the grid, `R = h*cellSize + (h+1)*wallThickness`. -/
def gridRows (h cs wt : Int) : Int := h * cs + (h + 1) * wt

/-- Pixel width of the grid, `C = w*cellSize + (w+1)*wallThickness`. -/
def gridCols (w cs wt : Int) : Int := w * cs + (w + 1) * wt

/-- The configuration of a maze instance. -/
def Cfg (m : Maze) (w h cs wt : Int) : Prop :=
  m.Cols = w ∧ m.Rows = h ∧ m.CellSize = cs ∧ m.WallThickness = wt

/-- Every stored pixel is an occupancy value 0 or 1. -/
def binB (g : List (List Int)) : Prop :=
  ∀ y x v, idx2 g y x = some v → v = 0 ∨ v = 1

/-- Structural invariant of a maze instance with configuration `w h cs wt`. -/
def InvM (m : Maze) (w h cs wt : Int) : Prop :=
  Cfg m w h cs wt ∧
  Unif m.Grid (gridRows h cs wt).toNat (gridCols w cs wt).toNat ∧
  Unif m.Visited h.toNat w.toNat ∧
  binB m.Grid

/-- A logical cell, `(row, column)`. -/
abbrev Cell := Int × Int

/-- The cell is inside the `h × w` cell grid. -/
def cellIn (w h : Int) (u : Cell) : Prop :=
  0 ≤ u.1 ∧ u.1 < h ∧ 0 ≤ u.2 ∧ u.2 < w

/-- The visited flag of a cell (out-of-range reads default to `true`; all
uses are in range). -/
def visB (m : Maze) (u : Cell) : Bool := (idx2 m.Visited u.1 u.2).getD true

/-- Number of unvisited cells. -/
def unvisL (v : List (List Bool)) : Nat :=
  (v.map fun row => row.countP fun b => !b).sum

/-- Number of unvisited cells of a maze. -/
def unvis (m : Maze) : Nat := unvisL m.Visited

/-- Pixel `(y, x)` is an open path pixel. -/
def openPx (m : Maze) (y x : Int) : Prop := idx2 m.Grid y x = some 0

/-- `y` lies in the `cellSize`-pixel band of cell row (or column) `k`. -/
def cellBand (cs wt k y : Int) : Prop :=
  wt + k * (cs + wt) ≤ y ∧ y < wt + k * (cs + wt) + cs

/-- `y` lies in the `wallThickness`-pixel wall band after cell row (or
column) `k`. -/
def wallBand (cs wt k y : Int) : Prop :=
  wt + k * (cs + wt) + cs ≤ y ∧ y < wt + (k + 1) * (cs + wt)

/-- Pixel `(y, x)` lies in the `cellSize × cellSize` block of cell `u`. -/
def inBlock (cs wt : Int) (u : Cell) (y x : Int) : Prop :=
  cellBand cs wt u.1 y ∧ cellBand cs wt u.2 x

/-- A canonical wall position: `(true, r, c)` is the wall strip between
cells `(r,c)` and `(r+1,c)`; `(false, r, c)` the one between `(r,c)` and
`(r,c+1)`. -/
abbrev WallPos := Bool × Int × Int

/-- Pixel `(y, x)` lies in the wall strip at position `p`. -/
def stripAt (cs wt : Int) : WallPos → Int → Int → Prop
  | (true, r, c), y, x => wallBand cs wt r y ∧ cellBand cs wt c x
  | (false, r, c), y, x => cellBand cs wt r y ∧ wallBand cs wt c x

/-- A carved inter-cell connection, ordered `(parent, child)`: the wall
between the two cells was opened while recursing from `parent` into
`child`. -/
abbrev Edge := Cell × Cell

/-- The two cells are orthogonal grid neighbours. -/
def adjacent (u v : Cell) : Prop :=
  (v.1 = u.1 + 1 ∧ v.2 = u.2) ∨ (v.1 = u.1 - 1 ∧ v.2 = u.2) ∨
  (v.1 = u.1 ∧ v.2 = u.2 + 1) ∨ (v.1 = u.1 ∧ v.2 = u.2 - 1)

/-- The canonical wall position between the two cells of an edge. -/
def posOf (e : Edge) : WallPos :=
  if e.2.1 = e.1.1 + 1 then (true, e.1.1, e.1.2)
  else if e.2.1 = e.1.1 - 1 then (true, e.2.1, e.2.2)
  else if e.2.2 = e.1.2 + 1 then (false, e.1.1, e.1.2)
  else (false, e.2.1, e.2.2)

/-- One step in the carved-connection graph (an edge, in either
direction). -/
def EStep (E : List Edge) (u v : Cell) : Prop := ∃ e ∈ E, e = (u, v) ∨ e = (v, u)

/-- Connectivity through carved connections. -/
def Conn (E : List Edge) : Cell → Cell → Prop := Relation.ReflTransGen (EStep E)

/-- All pixels of the block of cell `u` are open. -/
def blockOpen (m : Maze) (u : Cell) : Prop :=
  ∀ y x, inBlock m.CellSize m.WallThickness u y x → openPx m y x

/-- All pixels of the wall strip at `p` are open. -/
def stripOpen (m : Maze) (p : WallPos) : Prop :=
  ∀ y x, stripAt m.CellSize m.WallThickness p y x → openPx m y x

/-- One cell-level move through an open wall strip. -/
def openStep (m : Maze) (u v : Cell) : Prop :=
  cellIn m.Cols m.Rows u ∧ cellIn m.Cols m.Rows v ∧ adjacent u v ∧
    stripOpen m (posOf (u, v))

/-- Cell-level reachability through open-pixel corridors. -/
def cellReach (m : Maze) : Cell → Cell → Prop := Relation.ReflTransGen (openStep m)

/-- Executable test that every pixel of the wall strip at `p` is open. -/
def stripOpenB (m : Maze) (p : WallPos) : Bool :=
  let cs := m.CellSize
  let wt := m.WallThickness
  let ny := if p.1 then wt.toNat else cs.toNat
  let nx := if p.1 then cs.toNat else wt.toNat
  let y0 := if p.1 then wt + p.2.1 * (cs + wt) + cs else wt + p.2.1 * (cs + wt)
  let x0 := if p.1 then wt + p.2.2 * (cs + wt) else wt + p.2.2 * (cs + wt) + cs
  (List.range ny).all fun (dy : Nat) => (List.range nx).all fun (dx : Nat) =>
    idx2 m.Grid (y0 + (dy : Int)) (x0 + (dx : Int)) == some 0

/-- All wall positions between adjacent cells of the grid. -/
def wallPositions (m : Maze) : List WallPos :=
  ((List.range (m.Rows.toNat - 1)).flatMap fun (r : Nat) =>
    (List.range m.Cols.toNat).map fun (c : Nat) => ((true, (r : Int), (c : Int)) : WallPos)) ++
  ((List.range m.Rows.toNat).flatMap fun (r : Nat) =>
    (List.range (m.Cols.toNat - 1)).map fun (c : Nat) => ((false, (r : Int), (c : Int)) : WallPos))

/-- The number of open inter-cell connections: adjacent cell pairs whose
entire connecting wall strip consists of open pixels. -/
def openConnCount (m : Maze) : Nat := (wallPositions m).countP fun p => stripOpenB m p

/-! ## Basic lemmas: reads, writes, shapes -/

theorem foldl_preserve {α β : Type} {P : β → Prop} {f : β → α → β}
    (hf : ∀ b a, P b → P (f b a)) : ∀ (l : List α) (b : β), P b → P (l.foldl f b)
  | [], _, hb => hb
  | a :: t, b, hb => foldl_preserve hf t (f b a) (hf b a hb)

theorem unif_lookup {α : Type} {v : List (List α)} {R C : Nat} (hu : Unif v R C)
    {r c : Int} (hr0 : 0 ≤ r) (hr : r < (R : Int)) (hc0 : 0 ≤ c) (hc : c < (C : Int)) :
    ∃ b, idx2 v r c = some b := by
  obtain ⟨hl, hrow⟩ := hu
  have hrn : r.toNat < v.length := by omega
  have h1 : v[r.toNat]? = some v[r.toNat] := List.getElem?_eq_getElem hrn
  have hmem := List.getElem_mem hrn
  have hcl : c.toNat < (v[r.toNat]).length := by have := hrow _ hmem; omega
  exact ⟨(v[r.toNat])[c.toNat],
    by simp [idx2, hr0, hc0, h1, List.getElem?_eq_getElem hcl]⟩

theorem idx2_visB {m : Maze} {w h cs wt : Int} (hI : InvM m w h cs wt) {u : Cell}
    (hu : cellIn w h u) : idx2 m.Visited u.1 u.2 = some (visB m u) := by
  obtain ⟨_, _, hv, _⟩ := hI
  obtain ⟨h1, h2, h3, h4⟩ := hu
  obtain ⟨b, hb⟩ := unif_lookup hv h1 (by omega) h3 (by omega)
  simp [visB, hb]

/-- Pointwise description of updating one entry of one row. -/
theorem idx2_set_set {α : Type} {v : List (List α)} {i j : Nat} {row : List α} {a : α}
    (hrow : v[i]? = some row) (hj : j < row.length) (y x : Int) :
    idx2 (v.set i (row.set j a)) y x =
      if y = (i : Int) ∧ x = (j : Int) then some a else idx2 v y x := by
  have hi : i < v.length := (List.getElem?_eq_some.mp hrow).1
  unfold idx2
  by_cases hyx : 0 ≤ y ∧ 0 ≤ x
  · rw [if_pos hyx]
    by_cases hyi : y = (i : Int)
    · have hyn : y.toNat = i := by omega
      rw [hyn, List.getElem?_set_self hi, Option.some_bind]
      by_cases hxj : x = (j : Int)
      · have hxn : x.toNat = j := by omega
        rw [hxn, List.getElem?_set_self hj, if_pos ⟨hyi, hxj⟩]
      · have hxn : j ≠ x.toNat := by omega
        rw [List.getElem?_set_ne hxn, if_neg (fun hc => hxj hc.2), if_pos hyx, hrow,
          Option.some_bind]
    · have hyn : i ≠ y.toNat := by omega
      rw [List.getElem?_set_ne hyn, if_neg (fun hc => hyi hc.1), if_pos hyx]
  · rw [if_neg hyx,
      if_neg (by rintro ⟨h1, h2⟩; exact hyx ⟨by omega, by omega⟩), if_neg hyx]

theorem setVis_eq {v v' : List (List Bool)} {r c : Int}
    (h : setVis v r c = some v') :
    ∃ row, 0 ≤ r ∧ 0 ≤ c ∧ v[r.toNat]? = some row ∧ c.toNat < row.length ∧
      v' = v.set r.toNat (row.set c.toNat true) := by
  unfold setVis at h
  split at h
  · split at h
    next row hrow =>
      split at h
      next hc =>
        exact ⟨row, by tauto, by tauto, hrow, hc, (Option.some_inj.mp h).symm⟩
      next => simp at h
    next => simp at h
  · simp at h

theorem setVis_isSome {v : List (List Bool)} {R C : Nat} (hu : Unif v R C)
    {r c : Int} (hr0 : 0 ≤ r) (hr : r < (R : Int)) (hc0 : 0 ≤ c) (hc : c < (C : Int)) :
    ∃ v', setVis v r c = some v' := by
  obtain ⟨hl, hrow⟩ := hu
  have hrn : r.toNat < v.length := by omega
  have h1 : v[r.toNat]? = some v[r.toNat] := List.getElem?_eq_getElem hrn
  have hcl : c.toNat < (v[r.toNat]).length := by
    have := hrow _ (List.getElem_mem hrn); omega
  refine ⟨v.set r.toNat ((v[r.toNat]).set c.toNat true), ?_⟩
  unfold setVis
  rw [if_pos ⟨hr0, hc0⟩, h1]
  dsimp only
  rw [if_pos hcl]

theorem setVis_read {v v' : List (List Bool)} {r c : Int} (h : setVis v r c = some v') :
    idx2 v' r c = some true ∧
      ∀ r' c' : Int, ¬(r' = r ∧ c' = c) → idx2 v' r' c' = idx2 v r' c' := by
  obtain ⟨row, hr0, hc0, hrow, hcl, rfl⟩ := setVis_eq h
  constructor
  · rw [idx2_set_set hrow hcl, if_pos (by omega)]
  · intro r' c' hne
    rw [idx2_set_set hrow hcl, if_neg (by intro hc; exact hne ⟨by omega, by omega⟩)]

theorem setVis_unif {v v' : List (List Bool)} {R C : Nat} {r c : Int}
    (h : setVis v r c = some v') (hu : Unif v R C) : Unif v' R C := by
  obtain ⟨row, _, _, hrow, hcl, rfl⟩ := setVis_eq h
  obtain ⟨hl, hr⟩ := hu
  refine ⟨by simpa using hl, ?_⟩
  intro row' hmem
  rcases List.mem_or_eq_of_mem_set hmem with hin | rfl
  · exact hr _ hin
  · rw [List.length_set]
    exact hr _ ((List.getElem?_eq_some.mp hrow).2 ▸ List.getElem_mem _)

theorem setVis_unvis {v v' : List (List Bool)} {r c : Int}
    (h : setVis v r c = some v') (hf : idx2 v r c = some false) :
    unvisL v' + 1 = unvisL v := by
  obtain ⟨row, hr0, hc0, hrow, hcl, rfl⟩ := setVis_eq h
  have hi : r.toNat < v.length := (List.getElem?_eq_some.mp hrow).1
  have hrowv : v[r.toNat] = row := (List.getElem?_eq_some.mp hrow).2
  have hcell : row[c.toNat] = false := by
    unfold idx2 at hf
    rw [if_pos ⟨hr0, hc0⟩, hrow] at hf
    simpa [List.getElem?_eq_getElem hcl] using hf
  unfold unvisL
  rw [List.map_set, List.sum_set]
  have hlen : r.toNat < (v.map fun row => row.countP fun b => !b).length := by
    simpa using hi
  rw [if_pos hlen]
  have hcount : (row.set c.toNat true).countP (fun b => !b) + 1 =
      row.countP (fun b => !b) := by
    rw [List.countP_set _ _ _ _ hcl, hcell]
    have hpos : 0 < row.countP (fun b => !b) :=
      List.countP_pos_iff.mpr ⟨false, hcell ▸ List.getElem_mem hcl, rfl⟩
    simp
    omega
  have hsplit : (v.map fun row => row.countP fun b => !b).sum =
      ((v.map fun row => row.countP fun b => !b).take r.toNat).sum +
        (v.map fun row => row.countP fun b => !b)[r.toNat] +
        ((v.map fun row => row.countP fun b => !b).drop (r.toNat + 1)).sum := by
    conv_lhs => rw [← List.take_append_drop r.toNat (v.map fun row => row.countP fun b => !b)]
    rw [List.sum_append]
    rw [List.drop_eq_getElem_cons hlen, List.sum_cons]
    ring
  rw [hsplit]
  have hgete : (v.map fun row => row.countP fun b => !b)[r.toNat] =
      row.countP fun b => !b := by
    simp [hrowv]
  rw [hgete]
  omega

theorem gridSet_unif {g : List (List Int)} {R C : Nat} (hu : Unif g R C)
    (wy wx val : Int) : Unif (gridSet g wy wx val) R C := by
  unfold gridSet
  split_ifs with h
  · obtain ⟨hl, hrows⟩ := hu
    refine ⟨by simpa using hl, ?_⟩
    intro row' hmem
    rcases List.mem_or_eq_of_mem_set hmem with hin | rfl
    · exact hrows _ hin
    · rw [List.length_set]
      have hlt : wy.toNat < g.length := by omega
      simp only [List.getD_eq_getElem?_getD, List.getElem?_eq_getElem hlt, Option.getD_some]
      exact hrows _ (List.getElem_mem hlt)
  · exact hu

theorem gridSet_idx {g : List (List Int)} {R C : Nat} (hu : Unif g R C)
    (wy wx val y x : Int) :
    idx2 (gridSet g wy wx val) y x =
      if y = wy ∧ x = wx ∧ 0 ≤ wy ∧ wy < (R : Int) ∧ 0 ≤ wx ∧ wx < (C : Int) then some val
      else idx2 g y x := by
  obtain ⟨hl, hrows⟩ := hu
  unfold gridSet
  by_cases hb : 0 ≤ wy ∧ wy < (g.length : Int) ∧ 0 ≤ wx ∧ wx < ((g.headD []).length : Int)
  · rw [if_pos hb]
    have hgne : g ≠ [] := by
      intro hnil
      rw [hnil] at hb
      simp at hb
      omega
    obtain ⟨r0, t, hg⟩ := List.exists_cons_of_ne_nil hgne
    have hhead : (g.headD []).length = C := by
      rw [hg]
      exact hrows r0 (by rw [hg]; exact List.mem_cons_self r0 t)
    have hlt : wy.toNat < g.length := by omega
    have hrowidx : g[wy.toNat]? = some g[wy.toNat] := List.getElem?_eq_getElem hlt
    have hgetD : g.getD wy.toNat [] = g[wy.toNat] := by
      simp [List.getD_eq_getElem?_getD, hrowidx]
    have hrl : (g[wy.toNat]).length = C := hrows _ (List.getElem_mem hlt)
    have hjlt : wx.toNat < (g[wy.toNat]).length := by omega
    rw [hgetD, idx2_set_set hrowidx hjlt]
    have heq1 : ((wy.toNat : Int)) = wy := by omega
    have heq2 : ((wx.toNat : Int)) = wx := by omega
    rw [heq1, heq2]
    by_cases hyx : y = wy ∧ x = wx
    · rw [if_pos hyx, if_pos ⟨hyx.1, hyx.2, by omega, by omega, by omega, by omega⟩]
    · rw [if_neg hyx, if_neg (fun hc => hyx ⟨hc.1, hc.2.1⟩)]
  · rw [if_neg hb]
    by_cases hcond : y = wy ∧ x = wx ∧ 0 ≤ wy ∧ wy < (R : Int) ∧ 0 ≤ wx ∧ wx < (C : Int)
    · exfalso
      apply hb
      obtain ⟨-, -, h1, h2, h3, h4⟩ := hcond
      have hgne : g ≠ [] := by
        intro hnil
        rw [hnil] at hl
        simp at hl
        omega
      obtain ⟨r0, t, hg⟩ := List.exists_cons_of_ne_nil hgne
      have hhead : (g.headD []).length = C := by
        rw [hg]
        exact hrows r0 (by rw [hg]; exact List.mem_cons_self r0 t)
      exact ⟨h1, by omega, h3, by omega⟩
    · rw [if_neg hcond]

theorem innerX_unif {R C : Nat} {g : List (List Int)} (hu : Unif g R C)
    (Y x0 : Int) (nx : Nat) :
    Unif ((List.range nx).foldl (fun g2 (x1 : Nat) => gridSet g2 Y (x0 + (x1 : Int)) 0) g) R C :=
  @foldl_preserve Nat _ (fun g0 => Unif g0 R C) _
    (fun g2 x1 h => gridSet_unif h Y (x0 + (x1 : Int)) 0) (List.range nx) g hu

theorem innerX_idx {R C : Nat} (Y x0 : Int) (nx : Nat) {g : List (List Int)}
    (hu : Unif g R C) (y x : Int) :
    idx2 ((List.range nx).foldl (fun g2 (x1 : Nat) => gridSet g2 Y (x0 + (x1 : Int)) 0) g) y x =
      if y = Y ∧ x0 ≤ x ∧ x < x0 + (nx : Int) ∧ 0 ≤ y ∧ y < (R : Int) ∧ 0 ≤ x ∧ x < (C : Int)
      then some 0 else idx2 g y x := by
  induction nx with
  | zero =>
    simp only [List.range_zero, List.foldl_nil]
    rw [if_neg (by omega)]
  | succ n ih =>
    rw [List.range_succ, List.foldl_append, List.foldl_cons, List.foldl_nil]
    rw [gridSet_idx (innerX_unif hu Y x0 n) Y (x0 + (n : Int)) 0 y x, ih]
    split_ifs <;> first | rfl | omega

theorem innerY_unif {R C : Nat} {g : List (List Int)} (hu : Unif g R C)
    (y0 X : Int) (ny : Nat) :
    Unif ((List.range ny).foldl (fun g2 (y1 : Nat) => gridSet g2 (y0 + (y1 : Int)) X 0) g) R C :=
  @foldl_preserve Nat _ (fun g0 => Unif g0 R C) _
    (fun g2 y1 h => gridSet_unif h (y0 + (y1 : Int)) X 0) (List.range ny) g hu

theorem innerY_idx {R C : Nat} (y0 X : Int) (ny : Nat) {g : List (List Int)}
    (hu : Unif g R C) (y x : Int) :
    idx2 ((List.range ny).foldl (fun g2 (y1 : Nat) => gridSet g2 (y0 + (y1 : Int)) X 0) g) y x =
      if x = X ∧ y0 ≤ y ∧ y < y0 + (ny : Int) ∧ 0 ≤ y ∧ y < (R : Int) ∧ 0 ≤ x ∧ x < (C : Int)
      then some 0 else idx2 g y x := by
  induction ny with
  | zero =>
    simp only [List.range_zero, List.foldl_nil]
    rw [if_neg (by omega)]
  | succ n ih =>
    rw [List.range_succ, List.foldl_append, List.foldl_cons, List.foldl_nil]
    rw [gridSet_idx (innerY_unif hu y0 X n) (y0 + (n : Int)) X 0 y x, ih]
    split_ifs <;> first | rfl | omega

theorem fillYX_succ (g : List (List Int)) (y0 x0 : Int) (n nx : Nat) :
    fillYX g y0 (n + 1) x0 nx =
      (List.range nx).foldl
        (fun g2 (x1 : Nat) => gridSet g2 (y0 + (n : Int)) (x0 + (x1 : Int)) 0)
        (fillYX g y0 n x0 nx) := by
  unfold fillYX
  rw [List.range_succ, List.foldl_append]
  rfl

theorem fillXY_succ (g : List (List Int)) (y0 x0 : Int) (ny n : Nat) :
    fillXY g y0 ny x0 (n + 1) =
      (List.range ny).foldl
        (fun g2 (y1 : Nat) => gridSet g2 (y0 + (y1 : Int)) (x0 + (n : Int)) 0)
        (fillXY g y0 ny x0 n) := by
  unfold fillXY
  rw [List.range_succ, List.foldl_append]
  rfl

theorem fillYX_unif {R C : Nat} {g : List (List Int)} (hu : Unif g R C)
    (y0 x0 : Int) (ny nx : Nat) : Unif (fillYX g y0 ny x0 nx) R C := by
  induction ny with
  | zero => exact hu
  | succ n ih => rw [fillYX_succ]; exact innerX_unif ih (y0 + (n : Int)) x0 nx

theorem fillXY_unif {R C : Nat} {g : List (List Int)} (hu : Unif g R C)
    (y0 x0 : Int) (ny nx : Nat) : Unif (fillXY g y0 ny x0 nx) R C := by
  induction nx with
  | zero => exact hu
  | succ n ih => rw [fillXY_succ]; exact innerY_unif ih y0 (x0 + (n : Int)) ny

theorem fillYX_idx {R C : Nat} {g : List (List Int)} (hu : Unif g R C)
    (y0 x0 : Int) (ny nx : Nat) (y x : Int) :
    idx2 (fillYX g y0 ny x0 nx) y x =
      if y0 ≤ y ∧ y < y0 + (ny : Int) ∧ x0 ≤ x ∧ x < x0 + (nx : Int) ∧
          0 ≤ y ∧ y < (R : Int) ∧ 0 ≤ x ∧ x < (C : Int)
      then some 0 else idx2 g y x := by
  induction ny with
  | zero =>
    unfold fillYX
    simp only [List.range_zero, List.foldl_nil]
    rw [if_neg (by omega)]
  | succ n ih =>
    rw [fillYX_succ, innerX_idx (y0 + (n : Int)) x0 nx (fillYX_unif hu y0 x0 n nx) y x, ih]
    split_ifs <;> first | rfl | omega

theorem fillXY_idx {R C : Nat} {g : List (List Int)} (hu : Unif g R C)
    (y0 x0 : Int) (ny nx : Nat) (y x : Int) :
    idx2 (fillXY g y0 ny x0 nx) y x =
      if y0 ≤ y ∧ y < y0 + (ny : Int) ∧ x0 ≤ x ∧ x < x0 + (nx : Int) ∧
          0 ≤ y ∧ y < (R : Int) ∧ 0 ≤ x ∧ x < (C : Int)
      then some 0 else idx2 g y x := by
  induction nx with
  | zero =>
    unfold fillXY
    simp only [List.range_zero, List.foldl_nil]
    rw [if_neg (by omega)]
  | succ n ih =>
    rw [fillXY_succ, innerY_idx y0 (x0 + (n : Int)) ny (fillXY_unif hu y0 x0 ny n) y x, ih]
    split_ifs <;> first | rfl | omega

theorem binB_fillYX {R C : Nat} {g : List (List Int)} (hu : Unif g R C) (hb : binB g)
    (y0 x0 : Int) (ny nx : Nat) : binB (fillYX g y0 ny x0 nx) := by
  intro y x v hv
  rw [fillYX_idx hu y0 x0 ny nx y x] at hv
  split at hv
  · exact Or.inl (Option.some_inj.mp hv).symm
  · exact hb y x v hv

theorem binB_fillXY {R C : Nat} {g : List (List Int)} (hu : Unif g R C) (hb : binB g)
    (y0 x0 : Int) (ny nx : Nat) : binB (fillXY g y0 ny x0 nx) := by
  intro y x v hv
  rw [fillXY_idx hu y0 x0 ny nx y x] at hv
  split at hv
  · exact Or.inl (Option.some_inj.mp hv).symm
  · exact hb y x v hv

theorem idx2_mapmap {α β : Type} (f : α → β) (g : List (List α)) (y x : Int) :
    idx2 (g.map fun row => row.map f) y x = (idx2 g y x).map f := by
  unfold idx2
  by_cases h : 0 ≤ y ∧ 0 ≤ x
  · rw [if_pos h, if_pos h, List.getElem?_map]
    cases g[y.toNat]? with
    | none => rfl
    | some row => simp [List.getElem?_map]
  · rw [if_neg h, if_neg h]
    rfl

theorem unif_mapmap {α β : Type} {g : List (List α)} {R C : Nat} (hu : Unif g R C)
    (f : α → β) : Unif (g.map fun row => row.map f) R C := by
  obtain ⟨hl, hr⟩ := hu
  refine ⟨by simpa using hl, ?_⟩
  intro row hmem
  obtain ⟨row0, hin, rfl⟩ := List.mem_map.mp hmem
  simpa using hr _ hin

theorem resetM_grid (m : Maze) (y x : Int) :
    idx2 (resetM m).Grid y x = (idx2 m.Grid y x).map fun _ => (1 : Int) :=
  idx2_mapmap _ _ y x

theorem resetM_visited (m : Maze) (r c : Int) :
    idx2 (resetM m).Visited r c = (idx2 m.Visited r c).map fun _ => false :=
  idx2_mapmap _ _ r c

theorem resetM_wall (m : Maze) (y x : Int) : idx2 (resetM m).Grid y x ≠ some 0 := by
  rw [resetM_grid]
  cases idx2 m.Grid y x <;> simp

theorem visB_resetM {m : Maze} {R C : Nat} (hv : Unif m.Visited R C) {u : Cell}
    (h1 : 0 ≤ u.1) (h2 : u.1 < (R : Int)) (h3 : 0 ≤ u.2) (h4 : u.2 < (C : Int)) :
    visB (resetM m) u = false := by
  obtain ⟨b, hb⟩ := unif_lookup hv h1 h2 h3 h4
  unfold visB
  rw [resetM_visited, hb]
  rfl

theorem unvis_resetM {m : Maze} {R C : Nat} (hv : Unif m.Visited R C) :
    unvis (resetM m) = R * C := by
  unfold unvis unvisL resetM
  dsimp only
  rw [List.map_map]
  have hall : ∀ n ∈ m.Visited.map
      ((fun row => row.countP fun b => !b) ∘ fun row => row.map fun _ => false), n = C := by
    intro n hn
    obtain ⟨row, hin, rfl⟩ := List.mem_map.mp hn
    simp only [Function.comp]
    rw [List.countP_eq_length.mpr]
    · simp [hv.2 _ hin]
    · intro b hb
      obtain ⟨_, -, rfl⟩ := List.mem_map.mp hb
      rfl
  rw [List.eq_replicate_of_mem hall, List.sum_replicate]
  simp [hv.1, smul_eq_mul]

/-! ## Invariant bundles for the carving run -/

/-- Pixel `(y, x)` lies inside the allocated grid. -/
def pxIn (w h cs wt y x : Int) : Prop :=
  0 ≤ y ∧ y < gridRows h cs wt ∧ 0 ≤ x ∧ x < gridCols w cs wt

/-- Validity and visitedness facts for every carved connection of a run
from `m` to `m'` rooted at `root`. -/
def edgeFacts (w h : Int) (root : Cell) (m m' : Maze) (E : List Edge) : Prop :=
  ∀ e ∈ E, cellIn w h e.1 ∧ cellIn w h e.2 ∧ adjacent e.1 e.2 ∧
    visB m e.2 = false ∧ visB m' e.2 = true ∧
    (e.1 = root ∨ (visB m e.1 = false ∧ visB m' e.1 = true))

/-- All four in-range neighbours of `u` are visited. -/
def nbrsClosed (w h : Int) (m' : Maze) (u : Cell) : Prop :=
  (0 ≤ u.1 - 1 → visB m' (u.1 - 1, u.2) = true) ∧
  (u.1 + 1 < h → visB m' (u.1 + 1, u.2) = true) ∧
  (0 ≤ u.2 - 1 → visB m' (u.1, u.2 - 1) = true) ∧
  (u.2 + 1 < w → visB m' (u.1, u.2 + 1) = true)

/-- Every cell visited during the run is connected to the root by carved
connections and has all its neighbours visited afterwards. -/
def newConn (w h : Int) (root : Cell) (m m' : Maze) (E : List Edge) : Prop :=
  ∀ u : Cell, cellIn w h u → visB m' u = true →
    visB m u = true ∨ (Conn E root u ∧ nbrsClosed w h m' u)

/-- The pixels opened during a run are exactly the blocks of the newly
visited cells and the wall strips of the carved connections. -/
def gridChar (w h cs wt : Int) (m m' : Maze) (E : List Edge) : Prop :=
  ∀ y x : Int, openPx m' y x ↔
    (openPx m y x ∨
      (pxIn w h cs wt y x ∧
        ((∃ u : Cell, cellIn w h u ∧ visB m u = false ∧ visB m' u = true ∧
            inBlock cs wt u y x) ∨
         (∃ e ∈ E, stripAt cs wt (posOf e) y x))))

/-- Postcondition of one `dfs` call rooted at `root` (entered unvisited). -/
structure DfsPost (w h cs wt : Int) (m m' : Maze) (root : Cell) (E : List Edge) : Prop where
  inv : InvM m' w h cs wt
  mono : ∀ u : Cell, visB m u = true → visB m' u = true
  rootVis : visB m' root = true
  count : unvis m = unvis m' + E.length + 1
  efacts : edgeFacts w h root m m' E
  childNR : ∀ e ∈ E, e.2 ≠ root
  pw : List.Pairwise (fun e1 e2 => posOf e1 ≠ posOf e2) E
  conn : newConn w h root m m' E
  char : gridChar w h cs wt m m' E

/-- Postcondition of the direction loop rooted at `root` (already visited). -/
structure LoopPost (w h cs wt : Int) (m m' : Maze) (root : Cell) (E : List Edge) : Prop where
  inv : InvM m' w h cs wt
  mono : ∀ u : Cell, visB m u = true → visB m' u = true
  count : unvis m = unvis m' + E.length
  efacts : edgeFacts w h root m m' E
  pw : List.Pairwise (fun e1 e2 => posOf e1 ≠ posOf e2) E
  conn : newConn w h root m m' E
  char : gridChar w h cs wt m m' E

/-- After the loop, each direction that occurred in `dirs` has its in-range
neighbour visited. -/
def dirNbrs (w h : Int) (r c : Int) (dirs : List Nat) (m' : Maze) : Prop :=
  ∀ d ∈ dirs,
    (d = 0 → 0 ≤ r - 1 → visB m' (r - 1, c) = true) ∧
    (d = 1 → 0 ≤ c - 1 → visB m' (r, c - 1) = true) ∧
    (d = 2 → r + 1 < h → visB m' (r + 1, c) = true) ∧
    (d = 3 → c + 1 < w → visB m' (r, c + 1) = true)

/-! ## Small helper lemmas -/

theorem unvis_pos {m : Maze} {w h cs wt : Int} (hI : InvM m w h cs wt) {u : Cell}
    (hu : cellIn w h u) (hv : visB m u = false) : 0 < unvis m := by
  have hread := idx2_visB hI hu
  rw [hv] at hread
  obtain ⟨_, _, ⟨hl, hrows⟩, _⟩ := hI
  obtain ⟨h1, h2, h3, h4⟩ := hu
  unfold idx2 at hread
  rw [if_pos ⟨h1, h3⟩] at hread
  have hrn : u.1.toNat < m.Visited.length := by omega
  rw [List.getElem?_eq_getElem hrn, Option.some_bind] at hread
  have hrowpos : 0 < (m.Visited[u.1.toNat]).countP fun b => !b := by
    apply List.countP_pos_iff.mpr
    refine ⟨false, ?_, rfl⟩
    have := List.getElem?_eq_some.mp hread
    obtain ⟨hlt, hget⟩ := this
    exact hget ▸ List.getElem_mem hlt
  unfold unvis unvisL
  have hmem : (m.Visited[u.1.toNat]).countP (fun b => !b) ∈
      m.Visited.map fun row => row.countP fun b => !b := by
    exact List.mem_map.mpr ⟨_, List.getElem_mem hrn, rfl⟩
  have := List.single_le_sum (fun (x : Nat) _ => Nat.zero_le x) _ hmem
  omega

theorem conn_mono {E E' : List Edge} (hsub : ∀ e ∈ E, e ∈ E') {u v : Cell}
    (h : Conn E u v) : Conn E' u v :=
  Relation.ReflTransGen.mono
    (fun _ _ ⟨e, he, hor⟩ => ⟨e, hsub e he, hor⟩) h

theorem nbrsClosed_mono {w h : Int} {m m' : Maze}
    (hmono : ∀ u : Cell, visB m u = true → visB m' u = true) {u : Cell}
    (hc : nbrsClosed w h m u) : nbrsClosed w h m' u :=
  ⟨fun hb => hmono _ (hc.1 hb), fun hb => hmono _ (hc.2.1 hb),
   fun hb => hmono _ (hc.2.2.1 hb), fun hb => hmono _ (hc.2.2.2 hb)⟩

theorem visB_grid_update (m : Maze) (g : List (List Int)) (u : Cell) :
    visB { m with Grid := g } u = visB m u := rfl

theorem unvis_grid_update (m : Maze) (g : List (List Int)) :
    unvis { m with Grid := g } = unvis m := rfl

theorem gridRows_nonneg {h cs wt : Int} (hh : 0 ≤ h) (hcs : 0 ≤ cs) (hwt : 0 ≤ wt) :
    0 ≤ gridRows h cs wt := by
  unfold gridRows
  nlinarith

theorem gridCols_nonneg {w cs wt : Int} (hw : 0 ≤ w) (hcs : 0 ≤ cs) (hwt : 0 ≤ wt) :
    0 ≤ gridCols w cs wt := by
  unfold gridCols
  nlinarith

theorem startOf_nonneg {cs wt k : Int} (hcs : 0 ≤ cs) (hwt : 0 ≤ wt) (h0 : 0 ≤ k) :
    0 ≤ wt + k * (cs + wt) := by nlinarith

theorem startOf_upper {cs wt k h : Int} (hcs : 0 ≤ cs) (hwt : 0 ≤ wt)
    (h0 : 0 ≤ k) (hk : k < h) :
    wt + k * (cs + wt) + cs + wt ≤ gridRows h cs wt := by
  unfold gridRows
  nlinarith [mul_le_mul_of_nonneg_right (by omega : k + 1 ≤ h) (by omega : (0:Int) ≤ cs + wt)]

theorem startOf_upper_col {cs wt k w : Int} (hcs : 0 ≤ cs) (hwt : 0 ≤ wt)
    (h0 : 0 ≤ k) (hk : k < w) :
    wt + k * (cs + wt) + cs + wt ≤ gridCols w cs wt := by
  unfold gridCols
  nlinarith [mul_le_mul_of_nonneg_right (by omega : k + 1 ≤ w) (by omega : (0:Int) ≤ cs + wt)]

/-! ## Canonical wall positions of carved edges -/

theorem posOf_down (r c : Int) : posOf ((r, c), (r + 1, c)) = (true, r, c) := by
  unfold posOf
  rw [if_pos rfl]

theorem posOf_up (r c : Int) : posOf ((r, c), (r - 1, c)) = (true, r - 1, c) := by
  unfold posOf
  rw [if_neg (by dsimp; omega), if_pos rfl]

theorem posOf_right (r c : Int) : posOf ((r, c), (r, c + 1)) = (false, r, c) := by
  unfold posOf
  rw [if_neg (by dsimp; omega), if_neg (by dsimp; omega), if_pos rfl]

theorem posOf_left (r c : Int) : posOf ((r, c), (r, c - 1)) = (false, r, c - 1) := by
  unfold posOf
  rw [if_neg (by dsimp; omega), if_neg (by dsimp; omega), if_neg (by dsimp; omega)]

theorem posOf_inj {e1 e2 : Edge} (h1 : adjacent e1.1 e1.2) (h2 : adjacent e2.1 e2.2)
    (h : posOf e1 = posOf e2) :
    (e1.1 = e2.1 ∧ e1.2 = e2.2) ∨ (e1.1 = e2.2 ∧ e1.2 = e2.1) := by
  obtain ⟨⟨a1, b1⟩, c1, d1⟩ := e1
  obtain ⟨⟨a2, b2⟩, c2, d2⟩ := e2
  unfold adjacent at h1 h2
  dsimp at h1 h2 h ⊢
  rcases h1 with ⟨h1a, h1b⟩ | ⟨h1a, h1b⟩ | ⟨h1a, h1b⟩ | ⟨h1a, h1b⟩ <;>
    subst h1a <;> subst h1b <;>
    rcases h2 with ⟨h2a, h2b⟩ | ⟨h2a, h2b⟩ | ⟨h2a, h2b⟩ | ⟨h2a, h2b⟩ <;>
    subst h2a <;> subst h2b <;>
    simp [posOf_down, posOf_up, posOf_right, posOf_left, Prod.mk.injEq] at h ⊢ <;>
    omega

/-! ## The checked fills succeed on in-bounds rectangles -/

theorem gridSetChk_some {g : List (List Int)} {R C : Nat} (hu : Unif g R C) {wy wx : Int}
    (h1 : 0 ≤ wy) (h2 : wy < (R : Int)) (h3 : 0 ≤ wx) (h4 : wx < (C : Int)) (val : Int) :
    gridSetChk g wy wx val = some (gridSet g wy wx val) := by
  obtain ⟨hl, hrows⟩ := hu
  have hgne : g ≠ [] := by
    intro hnil
    rw [hnil] at hl
    simp at hl
    omega
  obtain ⟨r0, t, hg⟩ := List.exists_cons_of_ne_nil hgne
  have hhead : (g.headD []).length = C := by
    rw [hg]
    exact hrows r0 (by rw [hg]; exact List.mem_cons_self r0 t)
  have hcond : 0 ≤ wy ∧ wy < (g.length : Int) ∧ 0 ≤ wx ∧ wx < ((g.headD []).length : Int) :=
    ⟨h1, by omega, h3, by omega⟩
  unfold gridSetChk gridSet
  rw [if_pos hcond, if_pos hcond]

theorem innerXChk {R C : Nat} (Y x0 : Int) (nx : Nat) {g : List (List Int)} (hu : Unif g R C)
    (hb : ∀ x1 : Nat, x1 < nx →
      0 ≤ Y ∧ Y < (R : Int) ∧ 0 ≤ x0 + (x1 : Int) ∧ x0 + (x1 : Int) < (C : Int)) :
    (List.range nx).foldlM (fun g2 (x1 : Nat) => gridSetChk g2 Y (x0 + (x1 : Int)) 0) g =
      some ((List.range nx).foldl (fun g2 (x1 : Nat) => gridSet g2 Y (x0 + (x1 : Int)) 0) g) := by
  induction nx with
  | zero => rfl
  | succ n ih =>
    rw [List.range_succ, List.foldlM_append, List.foldl_append]
    rw [ih (fun x1 hx => hb x1 (by omega))]
    obtain ⟨hb1, hb2, hb3, hb4⟩ := hb n (by omega)
    simp only [Option.bind_eq_bind, Option.some_bind, List.foldlM_cons, List.foldlM_nil,
      List.foldl_cons, List.foldl_nil]
    rw [gridSetChk_some (innerX_unif hu Y x0 n) hb1 hb2 hb3 hb4 0]
    rfl

theorem innerYChk {R C : Nat} (y0 X : Int) (ny : Nat) {g : List (List Int)} (hu : Unif g R C)
    (hb : ∀ y1 : Nat, y1 < ny →
      0 ≤ y0 + (y1 : Int) ∧ y0 + (y1 : Int) < (R : Int) ∧ 0 ≤ X ∧ X < (C : Int)) :
    (List.range ny).foldlM (fun g2 (y1 : Nat) => gridSetChk g2 (y0 + (y1 : Int)) X 0) g =
      some ((List.range ny).foldl (fun g2 (y1 : Nat) => gridSet g2 (y0 + (y1 : Int)) X 0) g) := by
  induction ny with
  | zero => rfl
  | succ n ih =>
    rw [List.range_succ, List.foldlM_append, List.foldl_append]
    rw [ih (fun y1 hy => hb y1 (by omega))]
    obtain ⟨hb1, hb2, hb3, hb4⟩ := hb n (by omega)
    simp only [Option.bind_eq_bind, Option.some_bind, List.foldlM_cons, List.foldlM_nil,
      List.foldl_cons, List.foldl_nil]
    rw [gridSetChk_some (innerY_unif hu y0 X n) hb1 hb2 hb3 hb4 0]
    rfl

theorem fillYXChk_succ (g : List (List Int)) (y0 x0 : Int) (n nx : Nat) :
    fillYXChk g y0 (n + 1) x0 nx =
      (fillYXChk g y0 n x0 nx).bind fun g1 =>
        (List.range nx).foldlM
          (fun g2 (x1 : Nat) => gridSetChk g2 (y0 + (n : Int)) (x0 + (x1 : Int)) 0) g1 := by
  unfold fillYXChk
  rw [List.range_succ, List.foldlM_append]
  cases hA : List.foldlM (fun g1 (y : Nat) =>
      List.foldlM (fun g2 (x : Nat) => gridSetChk g2 (y0 + (y : Int)) (x0 + (x : Int)) 0)
        g1 (List.range nx)) g (List.range n) with
  | none => rfl
  | some g1 =>
    simp only [Option.bind_eq_bind, Option.some_bind, List.foldlM_cons, List.foldlM_nil]
    cases hB : List.foldlM (fun g2 (x : Nat) => gridSetChk g2 (y0 + (n : Int)) (x0 + (x : Int)) 0)
        g1 (List.range nx) with
    | none => rfl
    | some g2 => rfl

theorem fillXYChk_succ (g : List (List Int)) (y0 x0 : Int) (ny n : Nat) :
    fillXYChk g y0 ny x0 (n + 1) =
      (fillXYChk g y0 ny x0 n).bind fun g1 =>
        (List.range ny).foldlM
          (fun g2 (y1 : Nat) => gridSetChk g2 (y0 + (y1 : Int)) (x0 + (n : Int)) 0) g1 := by
  unfold fillXYChk
  rw [List.range_succ, List.foldlM_append]
  cases hA : List.foldlM (fun g1 (x : Nat) =>
      List.foldlM (fun g2 (y : Nat) => gridSetChk g2 (y0 + (y : Int)) (x0 + (x : Int)) 0)
        g1 (List.range ny)) g (List.range n) with
  | none => rfl
  | some g1 =>
    simp only [Option.bind_eq_bind, Option.some_bind, List.foldlM_cons, List.foldlM_nil]
    cases hB : List.foldlM (fun g2 (y : Nat) => gridSetChk g2 (y0 + (y : Int)) (x0 + (n : Int)) 0)
        g1 (List.range ny) with
    | none => rfl
    | some g2 => rfl

theorem fillYXChk_eq {R C : Nat} {g : List (List Int)} (hu : Unif g R C)
    (y0 x0 : Int) (ny nx : Nat)
    (hb : ∀ y1 : Nat, y1 < ny → ∀ x1 : Nat, x1 < nx →
      0 ≤ y0 + (y1 : Int) ∧ y0 + (y1 : Int) < (R : Int) ∧
      0 ≤ x0 + (x1 : Int) ∧ x0 + (x1 : Int) < (C : Int)) :
    fillYXChk g y0 ny x0 nx = some (fillYX g y0 ny x0 nx) := by
  induction ny with
  | zero => rfl
  | succ n ih =>
    rw [fillYXChk_succ, ih (fun y1 hy x1 hx => hb y1 (by omega) x1 hx), Option.some_bind]
    rw [innerXChk (y0 + (n : Int)) x0 nx (fillYX_unif hu y0 x0 n nx)
      (fun x1 hx => by
        obtain ⟨a, b, cc, d⟩ := hb n (by omega) x1 hx
        exact ⟨a, b, cc, d⟩)]
    rw [fillYX_succ]

theorem fillXYChk_eq {R C : Nat} {g : List (List Int)} (hu : Unif g R C)
    (y0 x0 : Int) (ny nx : Nat)
    (hb : ∀ y1 : Nat, y1 < ny → ∀ x1 : Nat, x1 < nx →
      0 ≤ y0 + (y1 : Int) ∧ y0 + (y1 : Int) < (R : Int) ∧
      0 ≤ x0 + (x1 : Int) ∧ x0 + (x1 : Int) < (C : Int)) :
    fillXYChk g y0 ny x0 nx = some (fillXY g y0 ny x0 nx) := by
  induction nx with
  | zero => rfl
  | succ n ih =>
    rw [fillXYChk_succ, ih (fun y1 hy x1 hx => hb y1 hy x1 (by omega)), Option.some_bind]
    rw [innerYChk y0 (x0 + (n : Int)) ny (fillXY_unif hu y0 x0 ny n)
      (fun y1 hy => by
        obtain ⟨a, b, cc, d⟩ := hb y1 hy n (by omega)
        exact ⟨a, b, cc, d⟩)]
    rw [fillXY_succ]

/-! ## Geometry of the five pixel fills of `dfs` -/

theorem fill_block {w h cs wt r c startY startX : Int} {R C : Nat}
    (hcs : 0 < cs) (hwt : 0 ≤ wt)
    (hR : (R : Int) = gridRows h cs wt) (hC : (C : Int) = gridCols w cs wt)
    (hr0 : 0 ≤ r) (hr1 : r < h) (hc0 : 0 ≤ c) (hc1 : c < w)
    (hsy : startY = wt + r * (cs + wt)) (hsx : startX = wt + c * (cs + wt))
    {g : List (List Int)} (hu : Unif g R C) :
    fillYXChk g startY cs.toNat startX cs.toNat =
        some (fillYX g startY cs.toNat startX cs.toNat) ∧
    ∀ y x : Int, idx2 (fillYX g startY cs.toNat startX cs.toNat) y x = some 0 ↔
      (idx2 g y x = some 0 ∨ (pxIn w h cs wt y x ∧ inBlock cs wt (r, c) y x)) := by
  have hyU : startY + cs + wt ≤ gridRows h cs wt := by
    rw [hsy]; exact startOf_upper (le_of_lt hcs) hwt hr0 hr1
  have hxU : startX + cs + wt ≤ gridCols w cs wt := by
    rw [hsx]; exact startOf_upper_col (le_of_lt hcs) hwt hc0 hc1
  have hyL : 0 ≤ startY := by rw [hsy]; exact startOf_nonneg (le_of_lt hcs) hwt hr0
  have hxL : 0 ≤ startX := by rw [hsx]; exact startOf_nonneg (le_of_lt hcs) hwt hc0
  have ecs : ((cs.toNat : Int)) = cs := by omega
  have hb : ∀ y1 : Nat, y1 < cs.toNat → ∀ x1 : Nat, x1 < cs.toNat →
      0 ≤ startY + (y1 : Int) ∧ startY + (y1 : Int) < (R : Int) ∧
      0 ≤ startX + (x1 : Int) ∧ startX + (x1 : Int) < (C : Int) := by
    intro y1 hy x1 hx
    refine ⟨by omega, by omega, by omega, by omega⟩
  refine ⟨fillYXChk_eq hu startY startX cs.toNat cs.toNat hb, ?_⟩
  intro y x
  rw [fillYX_idx hu startY startX cs.toNat cs.toNat y x]
  have hiff : (startY ≤ y ∧ y < startY + (cs.toNat : Int) ∧ startX ≤ x ∧
      x < startX + (cs.toNat : Int) ∧ 0 ≤ y ∧ y < (R : Int) ∧ 0 ≤ x ∧ x < (C : Int)) ↔
      (pxIn w h cs wt y x ∧ inBlock cs wt (r, c) y x) := by
    unfold pxIn inBlock cellBand
    dsimp only
    rw [ecs, hR, hC, ← hsy, ← hsx]
    omega
  split_ifs with hcond
  · exact ⟨fun _ => Or.inr (hiff.mp hcond), fun _ => rfl⟩
  · constructor
    · exact fun hg => Or.inl hg
    · rintro (hg | hnew)
      · exact hg
      · exact absurd (hiff.mpr hnew) hcond

theorem carve_up {w h cs wt r c startY startX : Int} {R C : Nat}
    (hcs : 0 < cs) (hwt : 0 ≤ wt)
    (hR : (R : Int) = gridRows h cs wt) (hC : (C : Int) = gridCols w cs wt)
    (hr0 : 0 ≤ r - 1) (hr1 : r < h) (hc0 : 0 ≤ c) (hc1 : c < w)
    (hsy : startY = wt + r * (cs + wt)) (hsx : startX = wt + c * (cs + wt))
    {g : List (List Int)} (hu : Unif g R C) :
    fillXYChk g (startY - wt) wt.toNat startX cs.toNat =
        some (fillXY g (startY - wt) wt.toNat startX cs.toNat) ∧
    ∀ y x : Int, idx2 (fillXY g (startY - wt) wt.toNat startX cs.toNat) y x = some 0 ↔
      (idx2 g y x = some 0 ∨
        (pxIn w h cs wt y x ∧ stripAt cs wt (posOf ((r, c), (r - 1, c))) y x)) := by
  have hyU : startY + cs + wt ≤ gridRows h cs wt := by
    rw [hsy]; exact startOf_upper (le_of_lt hcs) hwt (by omega) hr1
  have hxU : startX + cs + wt ≤ gridCols w cs wt := by
    rw [hsx]; exact startOf_upper_col (le_of_lt hcs) hwt hc0 hc1
  have hyL : 0 ≤ startY - wt := by
    rw [hsy]
    have : (0 : Int) ≤ r * (cs + wt) := mul_nonneg (by omega) (by omega)
    omega
  have hxL : 0 ≤ startX := by rw [hsx]; exact startOf_nonneg (le_of_lt hcs) hwt hc0
  have ecs : ((cs.toNat : Int)) = cs := by omega
  have ewt : ((wt.toNat : Int)) = wt := by omega
  have e3 : wt + (r - 1) * (cs + wt) + cs = startY - wt := by rw [hsy]; ring
  have e4 : wt + (r - 1 + 1) * (cs + wt) = startY := by rw [hsy]; ring
  have hb : ∀ y1 : Nat, y1 < wt.toNat → ∀ x1 : Nat, x1 < cs.toNat →
      0 ≤ (startY - wt) + (y1 : Int) ∧ (startY - wt) + (y1 : Int) < (R : Int) ∧
      0 ≤ startX + (x1 : Int) ∧ startX + (x1 : Int) < (C : Int) := by
    intro y1 hy x1 hx
    refine ⟨by omega, by omega, by omega, by omega⟩
  refine ⟨fillXYChk_eq hu (startY - wt) startX wt.toNat cs.toNat hb, ?_⟩
  intro y x
  rw [fillXY_idx hu (startY - wt) startX wt.toNat cs.toNat y x, posOf_up]
  have hiff : (startY - wt ≤ y ∧ y < startY - wt + (wt.toNat : Int) ∧ startX ≤ x ∧
      x < startX + (cs.toNat : Int) ∧ 0 ≤ y ∧ y < (R : Int) ∧ 0 ≤ x ∧ x < (C : Int)) ↔
      (pxIn w h cs wt y x ∧ stripAt cs wt (true, r - 1, c) y x) := by
    unfold pxIn stripAt wallBand cellBand
    dsimp only
    rw [ecs, ewt, hR, hC, e3, e4, ← hsx]
    omega
  split_ifs with hcond
  · exact ⟨fun _ => Or.inr (hiff.mp hcond), fun _ => rfl⟩
  · constructor
    · exact fun hg => Or.inl hg
    · rintro (hg | hnew)
      · exact hg
      · exact absurd (hiff.mpr hnew) hcond

theorem carve_down {w h cs wt r c startY startX : Int} {R C : Nat}
    (hcs : 0 < cs) (hwt : 0 ≤ wt)
    (hR : (R : Int) = gridRows h cs wt) (hC : (C : Int) = gridCols w cs wt)
    (hr0 : 0 ≤ r) (hr1 : r + 1 < h) (hc0 : 0 ≤ c) (hc1 : c < w)
    (hsy : startY = wt + r * (cs + wt)) (hsx : startX = wt + c * (cs + wt))
    {g : List (List Int)} (hu : Unif g R C) :
    fillXYChk g (startY + cs) wt.toNat startX cs.toNat =
        some (fillXY g (startY + cs) wt.toNat startX cs.toNat) ∧
    ∀ y x : Int, idx2 (fillXY g (startY + cs) wt.toNat startX cs.toNat) y x = some 0 ↔
      (idx2 g y x = some 0 ∨
        (pxIn w h cs wt y x ∧ stripAt cs wt (posOf ((r, c), (r + 1, c))) y x)) := by
  have hyU : startY + cs + wt ≤ gridRows h cs wt := by
    rw [hsy]; exact startOf_upper (le_of_lt hcs) hwt hr0 (by omega)
  have hxU : startX + cs + wt ≤ gridCols w cs wt := by
    rw [hsx]; exact startOf_upper_col (le_of_lt hcs) hwt hc0 hc1
  have hyL : 0 ≤ startY := by rw [hsy]; exact startOf_nonneg (le_of_lt hcs) hwt hr0
  have hxL : 0 ≤ startX := by rw [hsx]; exact startOf_nonneg (le_of_lt hcs) hwt hc0
  have ecs : ((cs.toNat : Int)) = cs := by omega
  have ewt : ((wt.toNat : Int)) = wt := by omega
  have e4 : wt + (r + 1) * (cs + wt) = startY + cs + wt := by rw [hsy]; ring
  have hb : ∀ y1 : Nat, y1 < wt.toNat → ∀ x1 : Nat, x1 < cs.toNat →
      0 ≤ (startY + cs) + (y1 : Int) ∧ (startY + cs) + (y1 : Int) < (R : Int) ∧
      0 ≤ startX + (x1 : Int) ∧ startX + (x1 : Int) < (C : Int) := by
    intro y1 hy x1 hx
    refine ⟨by omega, by omega, by omega, by omega⟩
  refine ⟨fillXYChk_eq hu (startY + cs) startX wt.toNat cs.toNat hb, ?_⟩
  intro y x
  rw [fillXY_idx hu (startY + cs) startX wt.toNat cs.toNat y x, posOf_down]
  have hiff : (startY + cs ≤ y ∧ y < startY + cs + (wt.toNat : Int) ∧ startX ≤ x ∧
      x < startX + (cs.toNat : Int) ∧ 0 ≤ y ∧ y < (R : Int) ∧ 0 ≤ x ∧ x < (C : Int)) ↔
      (pxIn w h cs wt y x ∧ stripAt cs wt (true, r, c) y x) := by
    unfold pxIn stripAt wallBand cellBand
    dsimp only
    rw [ecs, ewt, hR, hC, e4, ← hsy, ← hsx]
    omega
  split_ifs with hcond
  · exact ⟨fun _ => Or.inr (hiff.mp hcond), fun _ => rfl⟩
  · constructor
    · exact fun hg => Or.inl hg
    · rintro (hg | hnew)
      · exact hg
      · exact absurd (hiff.mpr hnew) hcond

theorem carve_left {w h cs wt r c startY startX : Int} {R C : Nat}
    (hcs : 0 < cs) (hwt : 0 ≤ wt)
    (hR : (R : Int) = gridRows h cs wt) (hC : (C : Int) = gridCols w cs wt)
    (hr0 : 0 ≤ r) (hr1 : r < h) (hc0 : 0 ≤ c - 1) (hc1 : c < w)
    (hsy : startY = wt + r * (cs + wt)) (hsx : startX = wt + c * (cs + wt))
    {g : List (List Int)} (hu : Unif g R C) :
    fillYXChk g startY cs.toNat (startX - wt) wt.toNat =
        some (fillYX g startY cs.toNat (startX - wt) wt.toNat) ∧
    ∀ y x : Int, idx2 (fillYX g startY cs.toNat (startX - wt) wt.toNat) y x = some 0 ↔
      (idx2 g y x = some 0 ∨
        (pxIn w h cs wt y x ∧ stripAt cs wt (posOf ((r, c), (r, c - 1))) y x)) := by
  have hyU : startY + cs + wt ≤ gridRows h cs wt := by
    rw [hsy]; exact startOf_upper (le_of_lt hcs) hwt hr0 hr1
  have hxU : startX + cs + wt ≤ gridCols w cs wt := by
    rw [hsx]; exact startOf_upper_col (le_of_lt hcs) hwt (by omega) hc1
  have hyL : 0 ≤ startY := by rw [hsy]; exact startOf_nonneg (le_of_lt hcs) hwt hr0
  have hxL : 0 ≤ startX - wt := by
    rw [hsx]
    have : (0 : Int) ≤ c * (cs + wt) := mul_nonneg (by omega) (by omega)
    omega
  have ecs : ((cs.toNat : Int)) = cs := by omega
  have ewt : ((wt.toNat : Int)) = wt := by omega
  have e3 : wt + (c - 1) * (cs + wt) + cs = startX - wt := by rw [hsx]; ring
  have e4 : wt + (c - 1 + 1) * (cs + wt) = startX := by rw [hsx]; ring
  have hb : ∀ y1 : Nat, y1 < cs.toNat → ∀ x1 : Nat, x1 < wt.toNat →
      0 ≤ startY + (y1 : Int) ∧ startY + (y1 : Int) < (R : Int) ∧
      0 ≤ (startX - wt) + (x1 : Int) ∧ (startX - wt) + (x1 : Int) < (C : Int) := by
    intro y1 hy x1 hx
    refine ⟨by omega, by omega, by omega, by omega⟩
  refine ⟨fillYXChk_eq hu startY (startX - wt) cs.toNat wt.toNat hb, ?_⟩
  intro y x
  rw [fillYX_idx hu startY (startX - wt) cs.toNat wt.toNat y x, posOf_left]
  have hiff : (startY ≤ y ∧ y < startY + (cs.toNat : Int) ∧ startX - wt ≤ x ∧
      x < startX - wt + (wt.toNat : Int) ∧ 0 ≤ y ∧ y < (R : Int) ∧ 0 ≤ x ∧ x < (C : Int)) ↔
      (pxIn w h cs wt y x ∧ stripAt cs wt (false, r, c - 1) y x) := by
    unfold pxIn stripAt wallBand cellBand
    dsimp only
    rw [ecs, ewt, hR, hC, e3, e4, ← hsy]
    omega
  split_ifs with hcond
  · exact ⟨fun _ => Or.inr (hiff.mp hcond), fun _ => rfl⟩
  · constructor
    · exact fun hg => Or.inl hg
    · rintro (hg | hnew)
      · exact hg
      · exact absurd (hiff.mpr hnew) hcond

theorem carve_right {w h cs wt r c startY startX : Int} {R C : Nat}
    (hcs : 0 < cs) (hwt : 0 ≤ wt)
    (hR : (R : Int) = gridRows h cs wt) (hC : (C : Int) = gridCols w cs wt)
    (hr0 : 0 ≤ r) (hr1 : r < h) (hc0 : 0 ≤ c) (hc1 : c + 1 < w)
    (hsy : startY = wt + r * (cs + wt)) (hsx : startX = wt + c * (cs + wt))
    {g : List (List Int)} (hu : Unif g R C) :
    fillYXChk g startY cs.toNat (startX + cs) wt.toNat =
        some (fillYX g startY cs.toNat (startX + cs) wt.toNat) ∧
    ∀ y x : Int, idx2 (fillYX g startY cs.toNat (startX + cs) wt.toNat) y x = some 0 ↔
      (idx2 g y x = some 0 ∨
        (pxIn w h cs wt y x ∧ stripAt cs wt (posOf ((r, c), (r, c + 1))) y x)) := by
  have hyU : startY + cs + wt ≤ gridRows h cs wt := by
    rw [hsy]; exact startOf_upper (le_of_lt hcs) hwt hr0 hr1
  have hxU : startX + cs + wt ≤ gridCols w cs wt := by
    rw [hsx]; exact startOf_upper_col (le_of_lt hcs) hwt hc0 (by omega)
  have hyL : 0 ≤ startY := by rw [hsy]; exact startOf_nonneg (le_of_lt hcs) hwt hr0
  have hxL : 0 ≤ startX := by rw [hsx]; exact startOf_nonneg (le_of_lt hcs) hwt hc0
  have ecs : ((cs.toNat : Int)) = cs := by omega
  have ewt : ((wt.toNat : Int)) = wt := by omega
  have e4 : wt + (c + 1) * (cs + wt) = startX + cs + wt := by rw [hsx]; ring
  have hb : ∀ y1 : Nat, y1 < cs.toNat → ∀ x1 : Nat, x1 < wt.toNat →
      0 ≤ startY + (y1 : Int) ∧ startY + (y1 : Int) < (R : Int) ∧
      0 ≤ (startX + cs) + (x1 : Int) ∧ (startX + cs) + (x1 : Int) < (C : Int) := by
    intro y1 hy x1 hx
    refine ⟨by omega, by omega, by omega, by omega⟩
  refine ⟨fillYXChk_eq hu startY (startX + cs) cs.toNat wt.toNat hb, ?_⟩
  intro y x
  rw [fillYX_idx hu startY (startX + cs) cs.toNat wt.toNat y x, posOf_right]
  have hiff : (startY ≤ y ∧ y < startY + (cs.toNat : Int) ∧ startX + cs ≤ x ∧
      x < startX + cs + (wt.toNat : Int) ∧ 0 ≤ y ∧ y < (R : Int) ∧ 0 ≤ x ∧ x < (C : Int)) ↔
      (pxIn w h cs wt y x ∧ stripAt cs wt (false, r, c) y x) := by
    unfold pxIn stripAt wallBand cellBand
    dsimp only
    rw [ecs, ewt, hR, hC, e4, ← hsy, ← hsx]
    omega
  split_ifs with hcond
  · exact ⟨fun _ => Or.inr (hiff.mp hcond), fun _ => rfl⟩
  · constructor
    · exact fun hg => Or.inl hg
    · rintro (hg | hnew)
      · exact hg
      · exact absurd (hiff.mpr hnew) hcond

/-! ## Composing one carve-and-recurse step with the rest of the loop -/

theorem vis_contra {a b : Maze} (mono : ∀ u : Cell, visB a u = true → visB b u = true)
    {u : Cell} (hf : visB b u = false) : visB a u = false := by
  cases hv : visB a u
  · rfl
  · rw [mono u hv] at hf
    exact Bool.noConfusion hf

theorem visB_eq_of_visited_eq {a b : Maze} (h : a.Visited = b.Visited) (u : Cell) :
    visB a u = visB b u := by
  unfold visB
  rw [h]

theorem unvis_eq_of_visited_eq {a b : Maze} (h : a.Visited = b.Visited) :
    unvis a = unvis b := by
  unfold unvis
  rw [h]

theorem loop_step {w h cs wt : Int} {m mC mA m2 : Maze} {r c : Int} {n : Cell}
    {E_A E_R : List Edge}
    (hroot : visB m (r, c) = true)
    (hrin : cellIn w h (r, c))
    (hnin : cellIn w h n)
    (hadj : adjacent (r, c) n)
    (hnvis : visB m n = false)
    (hA : DfsPost w h cs wt mC mA n E_A)
    (hR : LoopPost w h cs wt mA m2 (r, c) E_R)
    (hvisC : mC.Visited = m.Visited)
    (hcharC : ∀ y x : Int, openPx mC y x ↔
      (openPx m y x ∨ (pxIn w h cs wt y x ∧ stripAt cs wt (posOf ((r, c), n)) y x))) :
    LoopPost w h cs wt m m2 (r, c) (((r, c), n) :: (E_A ++ E_R)) := by
  have viseq : ∀ u : Cell, visB mC u = visB m u := visB_eq_of_visited_eq hvisC
  have monoCA : ∀ u : Cell, visB m u = true → visB mA u = true := fun u hu =>
    hA.mono u ((viseq u).symm ▸ hu)
  have monoT : ∀ u : Cell, visB m u = true → visB m2 u = true := fun u hu =>
    hR.mono u (monoCA u hu)
  have hvisn2 : visB m2 n = true := hR.mono n hA.rootVis
  have hmemE : ∀ e : Edge, e ∈ ((r, c), n) :: (E_A ++ E_R) ↔
      (e = ((r, c), n) ∨ e ∈ E_A ∨ e ∈ E_R) := by
    intro e
    simp [List.mem_cons, List.mem_append]
  refine ⟨hR.inv, monoT, ?_, ?_, ?_, ?_, ?_⟩
  · -- count
    have h1 := hA.count
    have h2 := hR.count
    have h0 : unvis mC = unvis m := unvis_eq_of_visited_eq hvisC
    simp only [List.length_cons, List.length_append]
    omega
  · -- edge facts
    intro e he
    rcases (hmemE e).mp he with rfl | he | he
    · exact ⟨hrin, hnin, hadj, hnvis, hvisn2, Or.inl rfl⟩
    · obtain ⟨hi1, hi2, hia, hc1, hc2, hp⟩ := hA.efacts e he
      refine ⟨hi1, hi2, hia, by rw [← viseq]; exact hc1, hR.mono _ hc2, ?_⟩
      rcases hp with hrt | ⟨hp1, hp2⟩
      · refine Or.inr ⟨?_, ?_⟩
        · rw [hrt]; exact hnvis
        · rw [hrt]; exact hvisn2
      · exact Or.inr ⟨by rw [← viseq]; exact hp1, hR.mono _ hp2⟩
    · obtain ⟨hi1, hi2, hia, hc1, hc2, hp⟩ := hR.efacts e he
      refine ⟨hi1, hi2, hia, vis_contra monoCA hc1, hc2, ?_⟩
      rcases hp with hrt | ⟨hp1, hp2⟩
      · exact Or.inl hrt
      · exact Or.inr ⟨vis_contra monoCA hp1, hp2⟩
  · -- pairwise distinct positions
    rw [List.pairwise_cons]
    constructor
    · intro e he heq
      rcases List.mem_append.mp he with he | he
      · obtain ⟨-, -, hia, hc1, -, -⟩ := hA.efacts e he
        rcases posOf_inj hadj hia heq with ⟨-, h2⟩ | ⟨h2, -⟩
        · exact absurd h2.symm (hA.childNR e he)
        · rw [← h2, (viseq (r, c)).trans hroot] at hc1
          exact Bool.noConfusion hc1
      · obtain ⟨-, -, hia, hc1, -, -⟩ := hR.efacts e he
        rcases posOf_inj hadj hia heq with ⟨-, h2⟩ | ⟨h2, -⟩
        · rw [← h2, hA.rootVis] at hc1
          exact Bool.noConfusion hc1
        · rw [← h2, monoCA _ hroot] at hc1
          exact Bool.noConfusion hc1
    · rw [List.pairwise_append]
      refine ⟨hA.pw, hR.pw, ?_⟩
      intro e he e' he' heq
      obtain ⟨-, -, hia, hc1, hc2, hp⟩ := hA.efacts e he
      obtain ⟨-, -, hia', hc1', -, -⟩ := hR.efacts e' he'
      have hp1A : visB mA e.1 = true := by
        rcases hp with hrt | ⟨-, hp2⟩
        · rw [hrt]; exact hA.rootVis
        · exact hp2
      rcases posOf_inj hia hia' heq with ⟨h1, h2⟩ | ⟨h1, h2⟩
      · rw [← h2, hc2] at hc1'
        exact Bool.noConfusion hc1'
      · rw [← h1, hp1A] at hc1'
        exact Bool.noConfusion hc1'
  · -- connectivity of new cells
    intro u hin hv2
    rcases hR.conn u hin hv2 with hvA | ⟨hconnR, hclosed⟩
    · rcases hA.conn u hin hvA with hvC | ⟨hconnA, hclosedA⟩
      · exact Or.inl ((viseq u) ▸ hvC)
      · refine Or.inr ⟨?_, nbrsClosed_mono hR.mono hclosedA⟩
        refine Relation.ReflTransGen.trans
          (Relation.ReflTransGen.single ⟨((r, c), n), List.mem_cons_self _ _, Or.inl rfl⟩) ?_
        exact conn_mono (fun e he => List.mem_cons_of_mem _ (List.mem_append_left _ he)) hconnA
    · exact Or.inr ⟨conn_mono
        (fun e he => List.mem_cons_of_mem _ (List.mem_append_right _ he)) hconnR, hclosed⟩
  · -- grid characterisation
    intro y x
    have h1 := hcharC y x
    have h2 := hA.char y x
    have h3 := hR.char y x
    constructor
    · intro ho2
      rcases h3.mp ho2 with hoA | ⟨hpx, hcase⟩
      · rcases h2.mp hoA with hoC | ⟨hpx, hcase⟩
        · rcases h1.mp hoC with hom | ⟨hpx, hstrip⟩
          · exact Or.inl hom
          · exact Or.inr ⟨hpx, Or.inr ⟨((r, c), n), List.mem_cons_self _ _, hstrip⟩⟩
        · refine Or.inr ⟨hpx, ?_⟩
          rcases hcase with ⟨u, hin, hvC, hvA, hblk⟩ | ⟨e, he, hstrip⟩
          · exact Or.inl ⟨u, hin, (viseq u) ▸ hvC, hR.mono u hvA, hblk⟩
          · exact Or.inr ⟨e, List.mem_cons_of_mem _ (List.mem_append_left _ he), hstrip⟩
      · refine Or.inr ⟨hpx, ?_⟩
        rcases hcase with ⟨u, hin, hvA, hv2u, hblk⟩ | ⟨e, he, hstrip⟩
        · exact Or.inl ⟨u, hin, vis_contra monoCA hvA, hv2u, hblk⟩
        · exact Or.inr ⟨e, List.mem_cons_of_mem _ (List.mem_append_right _ he), hstrip⟩
    · intro hcases
      rcases hcases with hom | ⟨hpx, hcase⟩
      · exact h3.mpr (Or.inl (h2.mpr (Or.inl (h1.mpr (Or.inl hom)))))
      · rcases hcase with ⟨u, hin, hvm, hv2u, hblk⟩ | ⟨e, he, hstrip⟩
        · by_cases hvAu : visB mA u = true
          · have hoA : openPx mA y x :=
              h2.mpr (Or.inr ⟨hpx, Or.inl ⟨u, hin, (viseq u).symm ▸ hvm, hvAu, hblk⟩⟩)
            exact h3.mpr (Or.inl hoA)
          · have hvAf : visB mA u = false := by
              cases hv : visB mA u
              · rfl
              · exact absurd hv hvAu
            exact h3.mpr (Or.inr ⟨hpx, Or.inl ⟨u, hin, hvAf, hv2u, hblk⟩⟩)
        · rcases (hmemE e).mp he with rfl | he | he
          · have hoC : openPx mC y x := h1.mpr (Or.inr ⟨hpx, hstrip⟩)
            exact h3.mpr (Or.inl (h2.mpr (Or.inl hoC)))
          · have hoA : openPx mA y x := h2.mpr (Or.inr ⟨hpx, Or.inr ⟨e, he, hstrip⟩⟩)
            exact h3.mpr (Or.inl hoA)
          · exact h3.mpr (Or.inr ⟨hpx, Or.inr ⟨e, he, hstrip⟩⟩)

theorem dirNbrs_cons {w h r c : Int} {d : Nat} {dirs : List Nat} {m' : Maze}
    (hd : (d = 0 → 0 ≤ r - 1 → visB m' (r - 1, c) = true) ∧
      (d = 1 → 0 ≤ c - 1 → visB m' (r, c - 1) = true) ∧
      (d = 2 → r + 1 < h → visB m' (r + 1, c) = true) ∧
      (d = 3 → c + 1 < w → visB m' (r, c + 1) = true))
    (hrest : dirNbrs w h r c dirs m') : dirNbrs w h r c (d :: dirs) m' := by
  intro d' hd'
  rcases List.mem_cons.mp hd' with rfl | hmem
  · exact hd
  · exact hrest d' hmem

/-- The direction loop establishes `LoopPost` and visits every in-range
neighbour whose direction occurs in `dirs`; the checked run agrees. -/
theorem dfsDirs_main {w h cs wt : Int} (perms : Nat → List Nat)
    (hcs : 0 < cs) (hwt : 0 ≤ wt) (fuel : Nat)
    (IH : ∀ (m : Maze) (r c : Int), InvM m w h cs wt → cellIn w h (r, c) →
      visB m (r, c) = false → unvis m ≤ fuel →
      ∃ m' E, dfs perms fuel m r c = some m' ∧ dfsChk perms fuel m r c = some m' ∧
        DfsPost w h cs wt m m' (r, c) E) :
    ∀ (dirs : List Nat) (m : Maze) (r c startY startX : Int),
      InvM m w h cs wt → cellIn w h (r, c) → visB m (r, c) = true → unvis m ≤ fuel →
      startY = wt + r * (cs + wt) → startX = wt + c * (cs + wt) →
      ∃ m' E, dfsDirs (dfs perms fuel) m r c startY startX dirs = some m' ∧
        dfsDirsChk (dfsChk perms fuel) m r c startY startX dirs = some m' ∧
        LoopPost w h cs wt m m' (r, c) E ∧ dirNbrs w h r c dirs m' := by
  intro dirs
  induction dirs with
  | nil =>
    intro m r c startY startX hI hrc hroot hfuel hsy hsx
    refine ⟨m, [], rfl, rfl, ?_, ?_⟩
    · refine ⟨hI, fun u hu => hu, by simp, fun e he => absurd he (List.not_mem_nil e),
        List.Pairwise.nil, fun u hin hv => Or.inl hv, ?_⟩
      intro y x
      constructor
      · exact fun hop => Or.inl hop
      · rintro (hop | ⟨hpx, ⟨u, hin, hvf, hvt, hblk⟩ | ⟨e, he, hstrip⟩⟩)
        · exact hop
        · rw [hvf] at hvt
          exact Bool.noConfusion hvt
        · exact absurd he (List.not_mem_nil e)
    · intro d hd
      exact absurd hd (List.not_mem_nil d)
  | cons d rest ihrest =>
    intro m r c startY startX hI hrc hroot hfuel hsy hsx
    have hI' := hI
    obtain ⟨⟨hf1, hf2, hf3, hf4⟩, hgU, hvU, hbin⟩ := hI'
    have hrc' : 0 ≤ r ∧ r < h ∧ 0 ≤ c ∧ c < w := hrc
    obtain ⟨hr0, hr1, hc0, hc1⟩ := hrc'
    have hh0 : 0 < h := by omega
    have hw0 : 0 < w := by omega
    have hRc : (((gridRows h cs wt).toNat : Int)) = gridRows h cs wt := by
      have := gridRows_nonneg (by omega : (0:Int) ≤ h) (le_of_lt hcs) hwt
      omega
    have hCc : (((gridCols w cs wt).toNat : Int)) = gridCols w cs wt := by
      have := gridCols_nonneg (by omega : (0:Int) ≤ w) (le_of_lt hcs) hwt
      omega
    rcases d with _ | _ | _ | _ | d
    · -- d = 0 : up, neighbour (r-1, c)
      simp only [dfsDirs, dfsDirsChk, hf1, hf2, hf3, hf4]
      by_cases hg : (0 : Int) ≤ r - 1
      · have hnin : cellIn w h (r - 1, c) := ⟨hg, by omega, hc0, hc1⟩
        have hread : idx2 m.Visited (r - 1) c = some (visB m (r - 1, c)) := idx2_visB hI hnin
        rw [if_pos hg, if_pos hg, hread]
        by_cases hv : visB m (r - 1, c) = true
        · rw [hv]
          simp only [if_true]
          obtain ⟨m', E, hrun, hrunChk, hpost, hnbrs⟩ :=
            ihrest m r c startY startX hI hrc hroot hfuel hsy hsx
          refine ⟨m', E, hrun, hrunChk, hpost, dirNbrs_cons ?_ hnbrs⟩
          exact ⟨fun _ _ => hpost.mono _ hv, fun h10 => absurd h10 (by omega),
            fun h10 => absurd h10 (by omega), fun h10 => absurd h10 (by omega)⟩
        · have hvf : visB m (r - 1, c) = false := by
            cases hvv : visB m (r - 1, c)
            · rfl
            · exact absurd hvv hv
          rw [hvf]
          simp only [Bool.false_eq_true, if_false]
          have pack := carve_up hcs hwt hRc hCc hg hr1 hc0 hc1 hsy hsx hgU
          have hIC : InvM (⟨fillXY m.Grid (startY - wt) wt.toNat startX cs.toNat,
              m.Visited, m.Rnd, cs, wt, w, h⟩ : Maze) w h cs wt :=
            ⟨⟨rfl, rfl, rfl, rfl⟩, fillXY_unif hgU (startY - wt) startX wt.toNat cs.toNat,
              hvU, binB_fillXY hgU hbin (startY - wt) startX wt.toNat cs.toNat⟩
          obtain ⟨mA, E_A, hdfs, hdfsChk, hApost⟩ :=
            IH (⟨fillXY m.Grid (startY - wt) wt.toNat startX cs.toNat,
              m.Visited, m.Rnd, cs, wt, w, h⟩ : Maze) (r - 1) c hIC hnin hvf hfuel
          have hC0 : unvis (⟨fillXY m.Grid (startY - wt) wt.toNat startX cs.toNat,
              m.Visited, m.Rnd, cs, wt, w, h⟩ : Maze) = unvis m := rfl
          have hfuelA : unvis mA ≤ fuel := by
            have := hApost.count
            omega
          have hrootA : visB mA (r, c) = true := hApost.mono _ hroot
          obtain ⟨m2, E_R, hrun2, hrunChk2, hRpost, hnbrs2⟩ :=
            ihrest mA r c startY startX hApost.inv hrc hrootA hfuelA hsy hsx
          refine ⟨m2, ((r, c), (r - 1, c)) :: (E_A ++ E_R), ?_, ?_, ?_, ?_⟩
          · simp only [hdfs]
            exact hrun2
          · simp only [pack.1, hdfsChk]
            exact hrunChk2
          · exact loop_step hroot hrc hnin (Or.inr (Or.inl ⟨rfl, rfl⟩)) hvf hApost hRpost rfl
              (fun y x => pack.2 y x)
          · refine dirNbrs_cons ?_ hnbrs2
            exact ⟨fun _ _ => hRpost.mono _ hApost.rootVis, fun h10 => absurd h10 (by omega),
              fun h10 => absurd h10 (by omega), fun h10 => absurd h10 (by omega)⟩
      · rw [if_neg hg, if_neg hg]
        obtain ⟨m', E, hrun, hrunChk, hpost, hnbrs⟩ :=
          ihrest m r c startY startX hI hrc hroot hfuel hsy hsx
        refine ⟨m', E, hrun, hrunChk, hpost, dirNbrs_cons ?_ hnbrs⟩
        exact ⟨fun _ hgg => absurd hgg hg, fun h10 => absurd h10 (by omega),
          fun h10 => absurd h10 (by omega), fun h10 => absurd h10 (by omega)⟩
    · -- d = 1 : left, neighbour (r, c-1)
      simp only [dfsDirs, dfsDirsChk, hf1, hf2, hf3, hf4]
      by_cases hg : (0 : Int) ≤ c - 1
      · have hnin : cellIn w h (r, c - 1) := ⟨hr0, hr1, hg, by omega⟩
        have hread : idx2 m.Visited r (c - 1) = some (visB m (r, c - 1)) := idx2_visB hI hnin
        rw [if_pos hg, if_pos hg, hread]
        by_cases hv : visB m (r, c - 1) = true
        · rw [hv]
          simp only [if_true]
          obtain ⟨m', E, hrun, hrunChk, hpost, hnbrs⟩ :=
            ihrest m r c startY startX hI hrc hroot hfuel hsy hsx
          refine ⟨m', E, hrun, hrunChk, hpost, dirNbrs_cons ?_ hnbrs⟩
          exact ⟨fun h10 => absurd h10 (by omega), fun _ _ => hpost.mono _ hv,
            fun h10 => absurd h10 (by omega), fun h10 => absurd h10 (by omega)⟩
        · have hvf : visB m (r, c - 1) = false := by
            cases hvv : visB m (r, c - 1)
            · rfl
            · exact absurd hvv hv
          rw [hvf]
          simp only [Bool.false_eq_true, if_false]
          have pack := carve_left hcs hwt hRc hCc hr0 hr1 hg hc1 hsy hsx hgU
          have hIC : InvM (⟨fillYX m.Grid startY cs.toNat (startX - wt) wt.toNat,
              m.Visited, m.Rnd, cs, wt, w, h⟩ : Maze) w h cs wt :=
            ⟨⟨rfl, rfl, rfl, rfl⟩, fillYX_unif hgU startY (startX - wt) cs.toNat wt.toNat,
              hvU, binB_fillYX hgU hbin startY (startX - wt) cs.toNat wt.toNat⟩
          obtain ⟨mA, E_A, hdfs, hdfsChk, hApost⟩ :=
            IH (⟨fillYX m.Grid startY cs.toNat (startX - wt) wt.toNat,
              m.Visited, m.Rnd, cs, wt, w, h⟩ : Maze) r (c - 1) hIC hnin hvf hfuel
          have hC0 : unvis (⟨fillYX m.Grid startY cs.toNat (startX - wt) wt.toNat,
              m.Visited, m.Rnd, cs, wt, w, h⟩ : Maze) = unvis m := rfl
          have hfuelA : unvis mA ≤ fuel := by
            have := hApost.count
            omega
          have hrootA : visB mA (r, c) = true := hApost.mono _ hroot
          obtain ⟨m2, E_R, hrun2, hrunChk2, hRpost, hnbrs2⟩ :=
            ihrest mA r c startY startX hApost.inv hrc hrootA hfuelA hsy hsx
          refine ⟨m2, ((r, c), (r, c - 1)) :: (E_A ++ E_R), ?_, ?_, ?_, ?_⟩
          · simp only [hdfs]
            exact hrun2
          · simp only [pack.1, hdfsChk]
            exact hrunChk2
          · exact loop_step hroot hrc hnin (Or.inr (Or.inr (Or.inr ⟨rfl, rfl⟩))) hvf hApost hRpost rfl
              (fun y x => pack.2 y x)
          · refine dirNbrs_cons ?_ hnbrs2
            exact ⟨fun h10 => absurd h10 (by omega), fun _ _ => hRpost.mono _ hApost.rootVis,
              fun h10 => absurd h10 (by omega), fun h10 => absurd h10 (by omega)⟩
      · rw [if_neg hg, if_neg hg]
        obtain ⟨m', E, hrun, hrunChk, hpost, hnbrs⟩ :=
          ihrest m r c startY startX hI hrc hroot hfuel hsy hsx
        refine ⟨m', E, hrun, hrunChk, hpost, dirNbrs_cons ?_ hnbrs⟩
        exact ⟨fun h10 => absurd h10 (by omega), fun _ hgg => absurd hgg hg,
          fun h10 => absurd h10 (by omega), fun h10 => absurd h10 (by omega)⟩
    · -- d = 2 : down, neighbour (r+1, c)
      simp only [dfsDirs, dfsDirsChk, hf1, hf2, hf3, hf4]
      by_cases hg : r + 1 < h
      · have hnin : cellIn w h (r + 1, c) := ⟨by omega, hg, hc0, hc1⟩
        have hread : idx2 m.Visited (r + 1) c = some (visB m (r + 1, c)) := idx2_visB hI hnin
        rw [if_pos hg, if_pos hg, hread]
        by_cases hv : visB m (r + 1, c) = true
        · rw [hv]
          simp only [if_true]
          obtain ⟨m', E, hrun, hrunChk, hpost, hnbrs⟩ :=
            ihrest m r c startY startX hI hrc hroot hfuel hsy hsx
          refine ⟨m', E, hrun, hrunChk, hpost, dirNbrs_cons ?_ hnbrs⟩
          exact ⟨fun h10 => absurd h10 (by omega), fun h10 => absurd h10 (by omega),
            fun _ _ => hpost.mono _ hv, fun h10 => absurd h10 (by omega)⟩
        · have hvf : visB m (r + 1, c) = false := by
            cases hvv : visB m (r + 1, c)
            · rfl
            · exact absurd hvv hv
          rw [hvf]
          simp only [Bool.false_eq_true, if_false]
          have pack := carve_down hcs hwt hRc hCc hr0 hg hc0 hc1 hsy hsx hgU
          have hIC : InvM (⟨fillXY m.Grid (startY + cs) wt.toNat startX cs.toNat,
              m.Visited, m.Rnd, cs, wt, w, h⟩ : Maze) w h cs wt :=
            ⟨⟨rfl, rfl, rfl, rfl⟩, fillXY_unif hgU (startY + cs) startX wt.toNat cs.toNat,
              hvU, binB_fillXY hgU hbin (startY + cs) startX wt.toNat cs.toNat⟩
          obtain ⟨mA, E_A, hdfs, hdfsChk, hApost⟩ :=
            IH (⟨fillXY m.Grid (startY + cs) wt.toNat startX cs.toNat,
              m.Visited, m.Rnd, cs, wt, w, h⟩ : Maze) (r + 1) c hIC hnin hvf hfuel
          have hC0 : unvis (⟨fillXY m.Grid (startY + cs) wt.toNat startX cs.toNat,
              m.Visited, m.Rnd, cs, wt, w, h⟩ : Maze) = unvis m := rfl
          have hfuelA : unvis mA ≤ fuel := by
            have := hApost.count
            omega
          have hrootA : visB mA (r, c) = true := hApost.mono _ hroot
          obtain ⟨m2, E_R, hrun2, hrunChk2, hRpost, hnbrs2⟩ :=
            ihrest mA r c startY startX hApost.inv hrc hrootA hfuelA hsy hsx
          refine ⟨m2, ((r, c), (r + 1, c)) :: (E_A ++ E_R), ?_, ?_, ?_, ?_⟩
          · simp only [hdfs]
            exact hrun2
          · simp only [pack.1, hdfsChk]
            exact hrunChk2
          · exact loop_step hroot hrc hnin (Or.inl ⟨rfl, rfl⟩) hvf hApost hRpost rfl
              (fun y x => pack.2 y x)
          · refine dirNbrs_cons ?_ hnbrs2
            exact ⟨fun h10 => absurd h10 (by omega), fun h10 => absurd h10 (by omega),
              fun _ _ => hRpost.mono _ hApost.rootVis, fun h10 => absurd h10 (by omega)⟩
      · rw [if_neg hg, if_neg hg]
        obtain ⟨m', E, hrun, hrunChk, hpost, hnbrs⟩ :=
          ihrest m r c startY startX hI hrc hroot hfuel hsy hsx
        refine ⟨m', E, hrun, hrunChk, hpost, dirNbrs_cons ?_ hnbrs⟩
        exact ⟨fun h10 => absurd h10 (by omega), fun h10 => absurd h10 (by omega),
          fun _ hgg => absurd hgg hg, fun h10 => absurd h10 (by omega)⟩
    · -- d = 3 : right, neighbour (r, c+1)
      simp only [dfsDirs, dfsDirsChk, hf1, hf2, hf3, hf4]
      by_cases hg : c + 1 < w
      · have hnin : cellIn w h (r, c + 1) := ⟨hr0, hr1, by omega, hg⟩
        have hread : idx2 m.Visited r (c + 1) = some (visB m (r, c + 1)) := idx2_visB hI hnin
        rw [if_pos hg, if_pos hg, hread]
        by_cases hv : visB m (r, c + 1) = true
        · rw [hv]
          simp only [if_true]
          obtain ⟨m', E, hrun, hrunChk, hpost, hnbrs⟩ :=
            ihrest m r c startY startX hI hrc hroot hfuel hsy hsx
          refine ⟨m', E, hrun, hrunChk, hpost, dirNbrs_cons ?_ hnbrs⟩
          exact ⟨fun h10 => absurd h10 (by omega), fun h10 => absurd h10 (by omega),
            fun h10 => absurd h10 (by omega), fun _ _ => hpost.mono _ hv⟩
        · have hvf : visB m (r, c + 1) = false := by
            cases hvv : visB m (r, c + 1)
            · rfl
            · exact absurd hvv hv
          rw [hvf]
          simp only [Bool.false_eq_true, if_false]
          have pack := carve_right hcs hwt hRc hCc hr0 hr1 hc0 hg hsy hsx hgU
          have hIC : InvM (⟨fillYX m.Grid startY cs.toNat (startX + cs) wt.toNat,
              m.Visited, m.Rnd, cs, wt, w, h⟩ : Maze) w h cs wt :=
            ⟨⟨rfl, rfl, rfl, rfl⟩, fillYX_unif hgU startY (startX + cs) cs.toNat wt.toNat,
              hvU, binB_fillYX hgU hbin startY (startX + cs) cs.toNat wt.toNat⟩
          obtain ⟨mA, E_A, hdfs, hdfsChk, hApost⟩ :=
            IH (⟨fillYX m.Grid startY cs.toNat (startX + cs) wt.toNat,
              m.Visited, m.Rnd, cs, wt, w, h⟩ : Maze) r (c + 1) hIC hnin hvf hfuel
          have hC0 : unvis (⟨fillYX m.Grid startY cs.toNat (startX + cs) wt.toNat,
              m.Visited, m.Rnd, cs, wt, w, h⟩ : Maze) = unvis m := rfl
          have hfuelA : unvis mA ≤ fuel := by
            have := hApost.count
            omega
          have hrootA : visB mA (r, c) = true := hApost.mono _ hroot
          obtain ⟨m2, E_R, hrun2, hrunChk2, hRpost, hnbrs2⟩ :=
            ihrest mA r c startY startX hApost.inv hrc hrootA hfuelA hsy hsx
          refine ⟨m2, ((r, c), (r, c + 1)) :: (E_A ++ E_R), ?_, ?_, ?_, ?_⟩
          · simp only [hdfs]
            exact hrun2
          · simp only [pack.1, hdfsChk]
            exact hrunChk2
          · exact loop_step hroot hrc hnin (Or.inr (Or.inr (Or.inl ⟨rfl, rfl⟩))) hvf hApost hRpost rfl
              (fun y x => pack.2 y x)
          · refine dirNbrs_cons ?_ hnbrs2
            exact ⟨fun h10 => absurd h10 (by omega), fun h10 => absurd h10 (by omega),
              fun h10 => absurd h10 (by omega), fun _ _ => hRpost.mono _ hApost.rootVis⟩
      · rw [if_neg hg, if_neg hg]
        obtain ⟨m', E, hrun, hrunChk, hpost, hnbrs⟩ :=
          ihrest m r c startY startX hI hrc hroot hfuel hsy hsx
        refine ⟨m', E, hrun, hrunChk, hpost, dirNbrs_cons ?_ hnbrs⟩
        exact ⟨fun h10 => absurd h10 (by omega), fun h10 => absurd h10 (by omega),
          fun h10 => absurd h10 (by omega), fun _ hgg => absurd hgg hg⟩
    · -- d ≥ 4 : no switch case matches
      simp only [dfsDirs, dfsDirsChk]
      obtain ⟨m', E, hrun, hrunChk, hpost, hnbrs⟩ :=
        ihrest m r c startY startX hI hrc hroot hfuel hsy hsx
      refine ⟨m', E, hrun, hrunChk, hpost, dirNbrs_cons ?_ hnbrs⟩
      exact ⟨fun h10 => absurd h10 (by omega), fun h10 => absurd h10 (by omega),
        fun h10 => absurd h10 (by omega), fun h10 => absurd h10 (by omega)⟩

theorem visB_after_set {m M : Maze} {vis : List (List Bool)} {r c : Int}
    (hsv : setVis m.Visited r c = some vis) (hM : M.Visited = vis) :
    visB M (r, c) = true ∧ ∀ u : Cell, u ≠ (r, c) → visB M u = visB m u := by
  obtain ⟨h1, h2⟩ := setVis_read hsv
  constructor
  · unfold visB
    rw [hM]
    dsimp only
    rw [h1]
    rfl
  · intro u hne
    unfold visB
    rw [hM, h2 u.1 u.2 (fun hc => hne (Prod.ext hc.1 hc.2))]

/-- Main invariant of the carving recursion: a `dfs` call on an unvisited
in-range cell with fuel at least the number of unvisited cells succeeds,
agrees with the bounds-checked run, and satisfies `DfsPost`. -/
theorem dfs_main {w h cs wt : Int} (perms : Nat → List Nat)
    (hper4 : ∀ i, 0 ∈ perms i ∧ 1 ∈ perms i ∧ 2 ∈ perms i ∧ 3 ∈ perms i)
    (hcs : 0 < cs) (hwt : 0 ≤ wt) :
    ∀ (fuel : Nat) (m : Maze) (r c : Int),
      InvM m w h cs wt → cellIn w h (r, c) → visB m (r, c) = false → unvis m ≤ fuel →
      ∃ m' E, dfs perms fuel m r c = some m' ∧ dfsChk perms fuel m r c = some m' ∧
        DfsPost w h cs wt m m' (r, c) E := by
  intro fuel
  induction fuel with
  | zero =>
    intro m r c hI hrc hv hfuel
    exact absurd hfuel (by have := unvis_pos hI hrc hv; omega)
  | succ fuel ihf =>
    intro m r c hI hrc hv hfuel
    have hI' := hI
    obtain ⟨⟨hf1, hf2, hf3, hf4⟩, hgU, hvU, hbin⟩ := hI'
    have hrc' : 0 ≤ r ∧ r < h ∧ 0 ≤ c ∧ c < w := hrc
    obtain ⟨hr0, hr1, hc0, hc1⟩ := hrc'
    have hh0 : 0 < h := by omega
    have hw0 : 0 < w := by omega
    have hRc : (((gridRows h cs wt).toNat : Int)) = gridRows h cs wt := by
      have := gridRows_nonneg (by omega : (0:Int) ≤ h) (le_of_lt hcs) hwt
      omega
    have hCc : (((gridCols w cs wt).toNat : Int)) = gridCols w cs wt := by
      have := gridCols_nonneg (by omega : (0:Int) ≤ w) (le_of_lt hcs) hwt
      omega
    obtain ⟨vis, hsv⟩ := setVis_isSome hvU hr0 (by omega) hc0 (by omega)
    have hreadf : idx2 m.Visited r c = some false := by
      have hvb := idx2_visB hI hrc
      rw [hv] at hvb
      exact hvb
    have pack := fill_block hcs hwt hRc hCc hr0 hr1 hc0 hc1 rfl rfl hgU
    simp only [dfs, dfsChk, hsv, hf1, hf2, hf3, hf4, pack.1]
    have hset := visB_after_set hsv
      (M := (⟨fillYX m.Grid (wt + r * (cs + wt)) cs.toNat (wt + c * (cs + wt)) cs.toNat,
        vis, m.Rnd + 1, cs, wt, w, h⟩ : Maze)) rfl
    have hvis3 : visB (⟨fillYX m.Grid (wt + r * (cs + wt)) cs.toNat
        (wt + c * (cs + wt)) cs.toNat, vis, m.Rnd + 1, cs, wt, w, h⟩ : Maze) (r, c) = true :=
      hset.1
    have mono3 : ∀ u : Cell, visB m u = true →
        visB (⟨fillYX m.Grid (wt + r * (cs + wt)) cs.toNat (wt + c * (cs + wt)) cs.toNat,
          vis, m.Rnd + 1, cs, wt, w, h⟩ : Maze) u = true := by
      intro u hu
      by_cases hueq : u = (r, c)
      · rw [hueq]
        exact hvis3
      · rw [hset.2 u hueq]
        exact hu
    have hI3 : InvM (⟨fillYX m.Grid (wt + r * (cs + wt)) cs.toNat
        (wt + c * (cs + wt)) cs.toNat, vis, m.Rnd + 1, cs, wt, w, h⟩ : Maze) w h cs wt :=
      ⟨⟨rfl, rfl, rfl, rfl⟩,
        fillYX_unif hgU (wt + r * (cs + wt)) (wt + c * (cs + wt)) cs.toNat cs.toNat,
        setVis_unif hsv hvU,
        binB_fillYX hgU hbin (wt + r * (cs + wt)) (wt + c * (cs + wt)) cs.toNat cs.toNat⟩
    have hunvis3 : unvis (⟨fillYX m.Grid (wt + r * (cs + wt)) cs.toNat
        (wt + c * (cs + wt)) cs.toNat, vis, m.Rnd + 1, cs, wt, w, h⟩ : Maze) + 1 = unvis m :=
      setVis_unvis hsv hreadf
    obtain ⟨m2, E, hrun, hrunChk, hLpost, hnbrs⟩ :=
      dfsDirs_main perms hcs hwt fuel ihf (perms m.Rnd)
        (⟨fillYX m.Grid (wt + r * (cs + wt)) cs.toNat (wt + c * (cs + wt)) cs.toNat,
          vis, m.Rnd + 1, cs, wt, w, h⟩ : Maze) r c
        (wt + r * (cs + wt)) (wt + c * (cs + wt)) hI3 hrc hvis3 (by omega) rfl rfl
    have hclosedRC : nbrsClosed w h m2 (r, c) := by
      obtain ⟨hp0, hp1, hp2, hp3⟩ := hper4 m.Rnd
      exact ⟨fun hb => (hnbrs 0 hp0).1 rfl hb, fun hb => (hnbrs 2 hp2).2.2.1 rfl hb,
        fun hb => (hnbrs 1 hp1).2.1 rfl hb, fun hb => (hnbrs 3 hp3).2.2.2 rfl hb⟩
    refine ⟨m2, E, hrun, hrunChk, ?_, fun u hu => hLpost.mono u (mono3 u hu),
      hLpost.mono _ hvis3, ?_, ?_, ?_, ?_, ?_, ?_⟩
    · exact hLpost.inv
    · have := hLpost.count
      omega
    · intro e he
      obtain ⟨hi1, hi2, hia, hc1e, hc2e, hp⟩ := hLpost.efacts e he
      refine ⟨hi1, hi2, hia, vis_contra mono3 hc1e, hc2e, ?_⟩
      rcases hp with hrt | ⟨hp1, hp2⟩
      · exact Or.inl hrt
      · exact Or.inr ⟨vis_contra mono3 hp1, hp2⟩
    · intro e he heq
      obtain ⟨-, -, -, hc1e, -, -⟩ := hLpost.efacts e he
      rw [heq, hvis3] at hc1e
      exact Bool.noConfusion hc1e
    · exact hLpost.pw
    · intro u hin hv2
      rcases hLpost.conn u hin hv2 with hv3 | ⟨hconn, hcl⟩
      · by_cases hueq : u = (r, c)
        · rw [hueq]
          exact Or.inr ⟨Relation.ReflTransGen.refl, hclosedRC⟩
        · rw [← hset.2 u hueq]
          exact Or.inl hv3
      · exact Or.inr ⟨hconn, hcl⟩
    · intro y x
      have h3 := hLpost.char y x
      constructor
      · intro ho2
        rcases h3.mp ho2 with ho3 | ⟨hpx, hcase⟩
        · rcases (pack.2 y x).mp ho3 with hom | ⟨hpx, hblk⟩
          · exact Or.inl hom
          · exact Or.inr ⟨hpx, Or.inl ⟨(r, c), hrc, hv, hLpost.mono _ hvis3, hblk⟩⟩
        · refine Or.inr ⟨hpx, ?_⟩
          rcases hcase with ⟨u, hin, hvf3, hv2u, hblk⟩ | ⟨e, he, hstrip⟩
          · exact Or.inl ⟨u, hin, vis_contra mono3 hvf3, hv2u, hblk⟩
          · exact Or.inr ⟨e, he, hstrip⟩
      · intro hcases
        rcases hcases with hom | ⟨hpx, hcase⟩
        · exact h3.mpr (Or.inl ((pack.2 y x).mpr (Or.inl hom)))
        · rcases hcase with ⟨u, hin, hvmf, hv2u, hblk⟩ | ⟨e, he, hstrip⟩
          · by_cases hv3u : visB (⟨fillYX m.Grid (wt + r * (cs + wt)) cs.toNat
                (wt + c * (cs + wt)) cs.toNat, vis, m.Rnd + 1, cs, wt, w, h⟩ : Maze) u = true
            · by_cases hueq : u = (r, c)
              · rw [hueq] at hblk
                exact h3.mpr (Or.inl ((pack.2 y x).mpr (Or.inr ⟨hpx, hblk⟩)))
              · rw [hset.2 u hueq] at hv3u
                rw [hvmf] at hv3u
                exact Bool.noConfusion hv3u
            · have hv3f : visB (⟨fillYX m.Grid (wt + r * (cs + wt)) cs.toNat
                  (wt + c * (cs + wt)) cs.toNat, vis, m.Rnd + 1, cs, wt, w, h⟩ : Maze) u
                  = false := by
                cases hvv : visB (⟨fillYX m.Grid (wt + r * (cs + wt)) cs.toNat
                  (wt + c * (cs + wt)) cs.toNat, vis, m.Rnd + 1, cs, wt, w, h⟩ : Maze) u
                · rfl
                · exact absurd hvv hv3u
              exact h3.mpr (Or.inr ⟨hpx, Or.inl ⟨u, hin, hv3f, hv2u, hblk⟩⟩)
          · exact h3.mpr (Or.inr ⟨hpx, Or.inr ⟨e, he, hstrip⟩⟩)

/-- Extra fuel never changes a successful `dfs` run: fuel only bounds the
recursion depth. -/
theorem dfs_fuel_mono (perms : Nat → List Nat) :
    ∀ (fuel : Nat) (m : Maze) (r c : Int) (m' : Maze),
      dfs perms fuel m r c = some m' → dfs perms (fuel + 1) m r c = some m' := by
  intro fuel
  induction fuel with
  | zero =>
    intro m r c m' hrun
    exact Option.noConfusion hrun
  | succ fuel ih =>
    intro m r c m' hrun
    have loopmono : ∀ (dirs : List Nat) (mm : Maze) (sy sx : Int) (m2 : Maze),
        dfsDirs (dfs perms fuel) mm r c sy sx dirs = some m2 →
        dfsDirs (dfs perms (fuel + 1)) mm r c sy sx dirs = some m2 := by
      intro dirs
      induction dirs with
      | nil =>
        intro mm sy sx m2 hh
        exact hh
      | cons d rest ihd =>
        intro mm sy sx m2 hh
        rcases d with _ | _ | _ | _ | d
        · simp only [dfsDirs] at hh ⊢
          by_cases hg : (0 : Int) ≤ r - 1
          · rw [if_pos hg] at hh ⊢
            cases hidx : idx2 mm.Visited (r - 1) c with
            | none =>
              rw [hidx] at hh
              exact Option.noConfusion hh
            | some b =>
              rw [hidx] at hh
              dsimp only at hh ⊢
              cases b with
              | true =>
                rw [if_pos rfl] at hh ⊢
                exact ihd _ _ _ _ hh
              | false =>
                rw [if_neg (by simp)] at hh ⊢
                cases hstep : dfs perms fuel
                    (⟨fillXY mm.Grid (sy - mm.WallThickness) mm.WallThickness.toNat
                        sx mm.CellSize.toNat,
                      mm.Visited, mm.Rnd, mm.CellSize, mm.WallThickness, mm.Cols, mm.Rows⟩ :
                      Maze) (r - 1) c with
                | none =>
                  rw [hstep] at hh
                  exact Option.noConfusion hh
                | some mA =>
                  rw [hstep] at hh
                  rw [ih _ _ _ _ hstep]
                  exact ihd _ _ _ _ hh
          · rw [if_neg hg] at hh ⊢
            exact ihd _ _ _ _ hh
        · simp only [dfsDirs] at hh ⊢
          by_cases hg : (0 : Int) ≤ c - 1
          · rw [if_pos hg] at hh ⊢
            cases hidx : idx2 mm.Visited r (c - 1) with
            | none =>
              rw [hidx] at hh
              exact Option.noConfusion hh
            | some b =>
              rw [hidx] at hh
              dsimp only at hh ⊢
              cases b with
              | true =>
                rw [if_pos rfl] at hh ⊢
                exact ihd _ _ _ _ hh
              | false =>
                rw [if_neg (by simp)] at hh ⊢
                cases hstep : dfs perms fuel
                    (⟨fillYX mm.Grid sy mm.CellSize.toNat (sx - mm.WallThickness)
                        mm.WallThickness.toNat,
                      mm.Visited, mm.Rnd, mm.CellSize, mm.WallThickness, mm.Cols, mm.Rows⟩ :
                      Maze) r (c - 1) with
                | none =>
                  rw [hstep] at hh
                  exact Option.noConfusion hh
                | some mA =>
                  rw [hstep] at hh
                  rw [ih _ _ _ _ hstep]
                  exact ihd _ _ _ _ hh
          · rw [if_neg hg] at hh ⊢
            exact ihd _ _ _ _ hh
        · simp only [dfsDirs] at hh ⊢
          by_cases hg : r + 1 < mm.Rows
          · rw [if_pos hg] at hh ⊢
            cases hidx : idx2 mm.Visited (r + 1) c with
            | none =>
              rw [hidx] at hh
              exact Option.noConfusion hh
            | some b =>
              rw [hidx] at hh
              dsimp only at hh ⊢
              cases b with
              | true =>
                rw [if_pos rfl] at hh ⊢
                exact ihd _ _ _ _ hh
              | false =>
                rw [if_neg (by simp)] at hh ⊢
                cases hstep : dfs perms fuel
                    (⟨fillXY mm.Grid (sy + mm.CellSize) mm.WallThickness.toNat
                        sx mm.CellSize.toNat,
                      mm.Visited, mm.Rnd, mm.CellSize, mm.WallThickness, mm.Cols, mm.Rows⟩ :
                      Maze) (r + 1) c with
                | none =>
                  rw [hstep] at hh
                  exact Option.noConfusion hh
                | some mA =>
                  rw [hstep] at hh
                  rw [ih _ _ _ _ hstep]
                  exact ihd _ _ _ _ hh
          · rw [if_neg hg] at hh ⊢
            exact ihd _ _ _ _ hh
        · simp only [dfsDirs] at hh ⊢
          by_cases hg : c + 1 < mm.Cols
          · rw [if_pos hg] at hh ⊢
            cases hidx : idx2 mm.Visited r (c + 1) with
            | none =>
              rw [hidx] at hh
              exact Option.noConfusion hh
            | some b =>
              rw [hidx] at hh
              dsimp only at hh ⊢
              cases b with
              | true =>
                rw [if_pos rfl] at hh ⊢
                exact ihd _ _ _ _ hh
              | false =>
                rw [if_neg (by simp)] at hh ⊢
                cases hstep : dfs perms fuel
                    (⟨fillYX mm.Grid sy mm.CellSize.toNat (sx + mm.CellSize)
                        mm.WallThickness.toNat,
                      mm.Visited, mm.Rnd, mm.CellSize, mm.WallThickness, mm.Cols, mm.Rows⟩ :
                      Maze) r (c + 1) with
                | none =>
                  rw [hstep] at hh
                  exact Option.noConfusion hh
                | some mA =>
                  rw [hstep] at hh
                  rw [ih _ _ _ _ hstep]
                  exact ihd _ _ _ _ hh
          · rw [if_neg hg] at hh ⊢
            exact ihd _ _ _ _ hh
        · simp only [dfsDirs] at hh ⊢
          exact ihd _ _ _ _ hh
    simp only [dfs] at hrun ⊢
    cases hsv : setVis m.Visited r c with
    | none =>
      rw [hsv] at hrun
      exact Option.noConfusion hrun
    | some vis =>
      rw [hsv] at hrun
      exact loopmono _ _ _ _ _ hrun

/-- A nonempty neighbour-closed set of visited cells containing (0,0)
covers the whole cell grid. -/
theorem closed_all {w h : Int} {m' : Maze}
    (h00 : visB m' (0, 0) = true)
    (hcl : ∀ u : Cell, cellIn w h u → visB m' u = true → nbrsClosed w h m' u)
    (hw : 0 < w) (hh : 0 < h) :
    ∀ u : Cell, cellIn w h u → visB m' u = true := by
  have hcol : ∀ n : Nat, (n : Int) < h → visB m' ((n : Int), 0) = true := by
    intro n
    induction n with
    | zero =>
      intro _
      simpa using h00
    | succ k ihk =>
      intro hlt
      have hk : ((k : Int)) < h := by omega
      have hin : cellIn w h ((k : Int), 0) := ⟨by omega, hk, le_refl 0, hw⟩
      have h2 := (hcl _ hin (ihk hk)).2.1 (by omega)
      have hcast : ((k + 1 : Nat) : Int) = (k : Int) + 1 := by omega
      rw [hcast]
      exact h2
  have hall : ∀ i : Nat, (i : Int) < h → ∀ j : Nat, (j : Int) < w →
      visB m' ((i : Int), (j : Int)) = true := by
    intro i hi j
    induction j with
    | zero =>
      intro _
      simpa using hcol i hi
    | succ k ihk =>
      intro hltw
      have hk : ((k : Int)) < w := by omega
      have hin : cellIn w h ((i : Int), (k : Int)) := ⟨by omega, hi, by omega, hk⟩
      have h2 := (hcl _ hin (ihk hk)).2.2.2 (by omega)
      have hcast : ((k + 1 : Nat) : Int) = (k : Int) + 1 := by omega
      rw [hcast]
      exact h2
  intro u hin
  have hin' : 0 ≤ u.1 ∧ u.1 < h ∧ 0 ≤ u.2 ∧ u.2 < w := hin
  have hu : ((u.1.toNat : Int), (u.2.toNat : Int)) = u := by
    obtain ⟨a, b⟩ := u
    dsimp at hin' ⊢
    rw [Prod.mk.injEq]
    omega
  rw [← hu]
  exact hall u.1.toNat (by omega) u.2.toNat (by omega)

/-- If every in-range cell is visited, no unvisited cell is counted. -/
theorem unvis_zero {m' : Maze} {w h cs wt : Int} (hI : InvM m' w h cs wt)
    (hall : ∀ u : Cell, cellIn w h u → visB m' u = true) : unvis m' = 0 := by
  obtain ⟨-, -, ⟨hl, hrows⟩, -⟩ := hI
  unfold unvis unvisL
  apply List.sum_eq_zero
  intro n hn
  obtain ⟨row, hrow, rfl⟩ := List.mem_map.mp hn
  rw [List.countP_eq_zero]
  intro b hb
  obtain ⟨i, hi⟩ := List.mem_iff_getElem.mp hrow
  obtain ⟨hilt, hieq⟩ := hi
  obtain ⟨j, hj⟩ := List.mem_iff_getElem.mp hb
  obtain ⟨hjlt, hjeq⟩ := hj
  have hjw : j < w.toNat := by
    have := hrows row hrow
    omega
  have hread : idx2 m'.Visited (i : Int) (j : Int) = some b := by
    unfold idx2
    rw [if_pos ⟨by omega, by omega⟩]
    have hi1 : ((i : Int)).toNat = i := by omega
    have hj1 : ((j : Int)).toNat = j := by omega
    rw [hi1, hj1, List.getElem?_eq_getElem hilt, hieq, Option.some_bind,
      List.getElem?_eq_getElem hjlt, hjeq]
  have hvb : visB m' ((i : Int), (j : Int)) = b := by
    unfold visB
    rw [hread]
    rfl
  have hw0 : 0 < w := by
    have := hrows row hrow
    omega
  have := hall ((i : Int), (j : Int)) ⟨by omega, by omega, by omega, by omega⟩
  rw [hvb] at this
  rw [this]
  simp

/-- Full description of a `Generate` run on a well-formed instance: it
succeeds, agrees with the bounds-checked run, needs only `Rows*Cols`
recursion depth, visits every cell, and carves exactly `Rows*Cols - 1`
connections described by `DfsPost`. -/
theorem Generate_main {w h cs wt : Int} (perms : Nat → List Nat)
    (hper : ∀ i : Nat, List.Perm (perms i) [0, 1, 2, 3])
    (hw : 0 < w) (hh : 0 < h) (hcs : 0 < cs) (hwt : 0 ≤ wt)
    {m : Maze} (hI : InvM m w h cs wt) :
    ∃ m' E, Generate m perms = some m' ∧ GenerateChk m perms = some m' ∧
      dfs perms (h.toNat * w.toNat) (resetM m) 0 0 = some m' ∧
      InvM m' w h cs wt ∧
      DfsPost w h cs wt (resetM m) m' (0, 0) E ∧
      (∀ u : Cell, cellIn w h u → visB m' u = true) ∧
      unvis m' = 0 ∧
      E.length + 1 = h.toNat * w.toNat := by
  have hper4 : ∀ i, 0 ∈ perms i ∧ 1 ∈ perms i ∧ 2 ∈ perms i ∧ 3 ∈ perms i := fun i =>
    ⟨(hper i).mem_iff.mpr (by decide), (hper i).mem_iff.mpr (by decide),
     (hper i).mem_iff.mpr (by decide), (hper i).mem_iff.mpr (by decide)⟩
  have hI' := hI
  obtain ⟨⟨hf1, hf2, hf3, hf4⟩, hgU, hvU, hbin⟩ := hI'
  have hI0 : InvM (resetM m) w h cs wt := by
    refine ⟨⟨hf1, hf2, hf3, hf4⟩, unif_mapmap hgU _, unif_mapmap hvU _, ?_⟩
    intro y x v hval
    rw [resetM_grid] at hval
    cases hread : idx2 m.Grid y x with
    | none =>
      rw [hread] at hval
      exact Option.noConfusion hval
    | some v0 =>
      rw [hread] at hval
      exact Or.inr (Option.some_inj.mp hval).symm
  have hin00 : cellIn w h ((0 : Int), (0 : Int)) := ⟨le_refl 0, hh, le_refl 0, hw⟩
  have hvis00 : visB (resetM m) ((0 : Int), (0 : Int)) = false :=
    visB_resetM hvU (le_refl 0) (by omega) (le_refl 0) (by omega)
  have hunvis0 : unvis (resetM m) = h.toNat * w.toNat := unvis_resetM hvU
  obtain ⟨m', E, hdfs, hdfsChk, hpost⟩ :=
    dfs_main perms hper4 hcs hwt (h.toNat * w.toNat) (resetM m) 0 0 hI0 hin00 hvis00
      (le_of_eq hunvis0)
  obtain ⟨m2, E2, hdfs2, hdfsChk2, hpost2⟩ :=
    dfs_main perms hper4 hcs hwt (h.toNat * w.toNat + 1) (resetM m) 0 0 hI0 hin00 hvis00
      (by omega)
  have hmono1 := dfs_fuel_mono perms (h.toNat * w.toNat) (resetM m) 0 0 m' hdfs
  have hm2 : m2 = m' := by
    rw [hmono1] at hdfs2
    exact (Option.some_inj.mp hdfs2).symm
  subst hm2
  have hall : ∀ u : Cell, cellIn w h u → visB m2 u = true := by
    refine closed_all hpost2.rootVis ?_ hw hh
    intro u hin hv
    rcases hpost2.conn u hin hv with hvr | ⟨-, hcl⟩
    · have hin2 : 0 ≤ u.1 ∧ u.1 < h ∧ 0 ≤ u.2 ∧ u.2 < w := hin
      rw [visB_resetM hvU (by omega) (by omega) (by omega) (by omega)] at hvr
      exact Bool.noConfusion hvr
    · exact hcl
  have hzero : unvis m2 = 0 := unvis_zero hpost2.inv hall
  have hcount := hpost2.count
  refine ⟨m2, E2, ?_, ?_, hdfs, hpost2.inv, hpost2, hall, hzero, ?_⟩
  · unfold Generate
    rw [hf2, hf1]
    exact hdfs2
  · unfold GenerateChk
    rw [hf2, hf1]
    exact hdfsChk2
  · rw [hunvis0] at hcount
    omega

/-! ## Frame facts: the run never changes the configuration or the shapes -/

/-- Same outer length and the same length for every row. -/
def sameDims {α : Type} (g g2 : List (List α)) : Prop :=
  g2.length = g.length ∧ ∀ i : Nat, (g2.getD i []).length = (g.getD i []).length

theorem sameDims_refl {α : Type} (g : List (List α)) : sameDims g g :=
  ⟨rfl, fun _ => rfl⟩

theorem sameDims_trans {α : Type} {g1 g2 g3 : List (List α)}
    (h12 : sameDims g1 g2) (h23 : sameDims g2 g3) : sameDims g1 g3 :=
  ⟨h23.1.trans h12.1, fun i => (h23.2 i).trans (h12.2 i)⟩

theorem gridSet_sameDims (g : List (List Int)) (wy wx v : Int) :
    sameDims g (gridSet g wy wx v) := by
  unfold gridSet
  split_ifs with hcond
  · refine ⟨List.length_set _ _ _, ?_⟩
    intro i
    by_cases hi : i = wy.toNat
    · have hlt : wy.toNat < g.length := by omega
      rw [hi]
      simp only [List.getD_eq_getElem?_getD, List.getElem?_set_self hlt, Option.getD_some,
        List.length_set]
    · rw [List.getD_eq_getElem?_getD, List.getElem?_set_ne (fun hx => hi hx.symm),
        List.getD_eq_getElem?_getD]
  · exact sameDims_refl g

theorem fillYX_sameDims (g : List (List Int)) (y0 x0 : Int) (ny nx : Nat) :
    sameDims g (fillYX g y0 ny x0 nx) := by
  unfold fillYX
  refine @foldl_preserve Nat _ (fun g0 => sameDims g g0) _ ?_ (List.range ny) g
    (sameDims_refl g)
  intro g1 y hg1
  refine @foldl_preserve Nat _ (fun g0 => sameDims g g0) _ ?_ (List.range nx) g1 hg1
  intro g2 x hg2
  exact sameDims_trans hg2 (gridSet_sameDims g2 _ _ _)

theorem fillXY_sameDims (g : List (List Int)) (y0 x0 : Int) (ny nx : Nat) :
    sameDims g (fillXY g y0 ny x0 nx) := by
  unfold fillXY
  refine @foldl_preserve Nat _ (fun g0 => sameDims g g0) _ ?_ (List.range nx) g
    (sameDims_refl g)
  intro g1 x hg1
  refine @foldl_preserve Nat _ (fun g0 => sameDims g g0) _ ?_ (List.range ny) g1 hg1
  intro g2 y hg2
  exact sameDims_trans hg2 (gridSet_sameDims g2 _ _ _)

theorem setVis_sameDims {v v' : List (List Bool)} {r c : Int}
    (h : setVis v r c = some v') : sameDims v v' := by
  obtain ⟨row, -, -, hrow, hcl, rfl⟩ := setVis_eq h
  have hlt : r.toNat < v.length := (List.getElem?_eq_some.mp hrow).1
  refine ⟨List.length_set _ _ _, ?_⟩
  intro i
  by_cases hi : i = r.toNat
  · subst hi
    simp only [List.getD_eq_getElem?_getD, List.getElem?_set_self hlt, Option.getD_some,
      List.length_set, hrow]
  · rw [List.getD_eq_getElem?_getD, List.getElem?_set_ne (fun hx => hi hx.symm),
      List.getD_eq_getElem?_getD]

/-- A `dfs` run never changes the configuration fields and only overwrites
the grid and visited matrix in their allocated shapes. -/
theorem dfs_frame (perms : Nat → List Nat) :
    ∀ (fuel : Nat) (m : Maze) (r c : Int) (m' : Maze),
      dfs perms fuel m r c = some m' →
      m'.CellSize = m.CellSize ∧ m'.WallThickness = m.WallThickness ∧
      m'.Cols = m.Cols ∧ m'.Rows = m.Rows ∧
      sameDims m.Grid m'.Grid ∧ sameDims m.Visited m'.Visited := by
  intro fuel
  induction fuel with
  | zero =>
    intro m r c m' hrun
    exact Option.noConfusion hrun
  | succ fuel ih =>
    intro m r c m' hrun
    have loopframe : ∀ (dirs : List Nat) (mm : Maze) (sy sx : Int) (m2 : Maze),
        dfsDirs (dfs perms fuel) mm r c sy sx dirs = some m2 →
        m2.CellSize = mm.CellSize ∧ m2.WallThickness = mm.WallThickness ∧
        m2.Cols = mm.Cols ∧ m2.Rows = mm.Rows ∧
        sameDims mm.Grid m2.Grid ∧ sameDims mm.Visited m2.Visited := by
      intro dirs
      induction dirs with
      | nil =>
        intro mm sy sx m2 hh
        have hm : mm = m2 := Option.some_inj.mp hh
        rw [← hm]
        exact ⟨rfl, rfl, rfl, rfl, sameDims_refl _, sameDims_refl _⟩
      | cons d rest ihd =>
        intro mm sy sx m2 hh
        rcases d with _ | _ | _ | _ | d
        · simp only [dfsDirs] at hh
          by_cases hg : (0 : Int) ≤ r - 1
          · rw [if_pos hg] at hh
            cases hidx : idx2 mm.Visited (r - 1) c with
            | none =>
              rw [hidx] at hh
              exact Option.noConfusion hh
            | some b =>
              rw [hidx] at hh
              dsimp only at hh
              cases b with
              | true =>
                rw [if_pos rfl] at hh
                exact ihd _ _ _ _ hh
              | false =>
                rw [if_neg (by simp)] at hh
                cases hstep : dfs perms fuel
                    (⟨fillXY mm.Grid (sy - mm.WallThickness) mm.WallThickness.toNat
                        sx mm.CellSize.toNat,
                      mm.Visited, mm.Rnd, mm.CellSize, mm.WallThickness, mm.Cols, mm.Rows⟩ :
                      Maze) (r - 1) c with
                | none =>
                  rw [hstep] at hh
                  exact Option.noConfusion hh
                | some mA =>
                  rw [hstep] at hh
                  obtain ⟨a1, a2, a3, a4, a5, a6⟩ := ih _ _ _ _ hstep
                  obtain ⟨b1, b2, b3, b4, b5, b6⟩ := ihd _ _ _ _ hh
                  exact ⟨b1.trans a1, b2.trans a2, b3.trans a3, b4.trans a4,
                    sameDims_trans (sameDims_trans
                      (fillXY_sameDims mm.Grid (sy - mm.WallThickness) sx
                        mm.WallThickness.toNat mm.CellSize.toNat) a5) b5,
                    sameDims_trans a6 b6⟩
          · rw [if_neg hg] at hh
            exact ihd _ _ _ _ hh
        · simp only [dfsDirs] at hh
          by_cases hg : (0 : Int) ≤ c - 1
          · rw [if_pos hg] at hh
            cases hidx : idx2 mm.Visited r (c - 1) with
            | none =>
              rw [hidx] at hh
              exact Option.noConfusion hh
            | some b =>
              rw [hidx] at hh
              dsimp only at hh
              cases b with
              | true =>
                rw [if_pos rfl] at hh
                exact ihd _ _ _ _ hh
              | false =>
                rw [if_neg (by simp)] at hh
                cases hstep : dfs perms fuel
                    (⟨fillYX mm.Grid sy mm.CellSize.toNat (sx - mm.WallThickness)
                        mm.WallThickness.toNat,
                      mm.Visited, mm.Rnd, mm.CellSize, mm.WallThickness, mm.Cols, mm.Rows⟩ :
                      Maze) r (c - 1) with
                | none =>
                  rw [hstep] at hh
                  exact Option.noConfusion hh
                | some mA =>
                  rw [hstep] at hh
                  obtain ⟨a1, a2, a3, a4, a5, a6⟩ := ih _ _ _ _ hstep
                  obtain ⟨b1, b2, b3, b4, b5, b6⟩ := ihd _ _ _ _ hh
                  exact ⟨b1.trans a1, b2.trans a2, b3.trans a3, b4.trans a4,
                    sameDims_trans (sameDims_trans
                      (fillYX_sameDims mm.Grid sy (sx - mm.WallThickness)
                        mm.CellSize.toNat mm.WallThickness.toNat) a5) b5,
                    sameDims_trans a6 b6⟩
          · rw [if_neg hg] at hh
            exact ihd _ _ _ _ hh
        · simp only [dfsDirs] at hh
          by_cases hg : r + 1 < mm.Rows
          · rw [if_pos hg] at hh
            cases hidx : idx2 mm.Visited (r + 1) c with
            | none =>
              rw [hidx] at hh
              exact Option.noConfusion hh
            | some b =>
              rw [hidx] at hh
              dsimp only at hh
              cases b with
              | true =>
                rw [if_pos rfl] at hh
                exact ihd _ _ _ _ hh
              | false =>
                rw [if_neg (by simp)] at hh
                cases hstep : dfs perms fuel
                    (⟨fillXY mm.Grid (sy + mm.CellSize) mm.WallThickness.toNat
                        sx mm.CellSize.toNat,
                      mm.Visited, mm.Rnd, mm.CellSize, mm.WallThickness, mm.Cols, mm.Rows⟩ :
                      Maze) (r + 1) c with
                | none =>
                  rw [hstep] at hh
                  exact Option.noConfusion hh
                | some mA =>
                  rw [hstep] at hh
                  obtain ⟨a1, a2, a3, a4, a5, a6⟩ := ih _ _ _ _ hstep
                  obtain ⟨b1, b2, b3, b4, b5, b6⟩ := ihd _ _ _ _ hh
                  exact ⟨b1.trans a1, b2.trans a2, b3.trans a3, b4.trans a4,
                    sameDims_trans (sameDims_trans
                      (fillXY_sameDims mm.Grid (sy + mm.CellSize) sx
                        mm.WallThickness.toNat mm.CellSize.toNat) a5) b5,
                    sameDims_trans a6 b6⟩
          · rw [if_neg hg] at hh
            exact ihd _ _ _ _ hh
        · simp only [dfsDirs] at hh
          by_cases hg : c + 1 < mm.Cols
          · rw [if_pos hg] at hh
            cases hidx : idx2 mm.Visited r (c + 1) with
            | none =>
              rw [hidx] at hh
              exact Option.noConfusion hh
            | some b =>
              rw [hidx] at hh
              dsimp only at hh
              cases b with
              | true =>
                rw [if_pos rfl] at hh
                exact ihd _ _ _ _ hh
              | false =>
                rw [if_neg (by simp)] at hh
                cases hstep : dfs perms fuel
                    (⟨fillYX mm.Grid sy mm.CellSize.toNat (sx + mm.CellSize)
                        mm.WallThickness.toNat,
                      mm.Visited, mm.Rnd, mm.CellSize, mm.WallThickness, mm.Cols, mm.Rows⟩ :
                      Maze) r (c + 1) with
                | none =>
                  rw [hstep] at hh
                  exact Option.noConfusion hh
                | some mA =>
                  rw [hstep] at hh
                  obtain ⟨a1, a2, a3, a4, a5, a6⟩ := ih _ _ _ _ hstep
                  obtain ⟨b1, b2, b3, b4, b5, b6⟩ := ihd _ _ _ _ hh
                  exact ⟨b1.trans a1, b2.trans a2, b3.trans a3, b4.trans a4,
                    sameDims_trans (sameDims_trans
                      (fillYX_sameDims mm.Grid sy (sx + mm.CellSize)
                        mm.CellSize.toNat mm.WallThickness.toNat) a5) b5,
                    sameDims_trans a6 b6⟩
          · rw [if_neg hg] at hh
            exact ihd _ _ _ _ hh
        · simp only [dfsDirs] at hh
          exact ihd _ _ _ _ hh
    simp only [dfs] at hrun
    cases hsv : setVis m.Visited r c with
    | none =>
      rw [hsv] at hrun
      exact Option.noConfusion hrun
    | some vis =>
      rw [hsv] at hrun
      obtain ⟨b1, b2, b3, b4, b5, b6⟩ := loopframe _ _ _ _ _ hrun
      refine ⟨b1, b2, b3, b4, ?_, ?_⟩
      · exact sameDims_trans (fillYX_sameDims m.Grid
          (m.WallThickness + r * (m.CellSize + m.WallThickness))
          (m.WallThickness + c * (m.CellSize + m.WallThickness))
          m.CellSize.toNat m.CellSize.toNat) b5
      · exact sameDims_trans (setVis_sameDims hsv) b6

/-! ## From the run bundle to the claim-level notions -/

theorem adjacent_symm {u v : Cell} (ha : adjacent u v) : adjacent v u := by
  unfold adjacent at ha ⊢
  omega

theorem posOf_symm {u v : Cell} (ha : adjacent u v) : posOf (v, u) = posOf (u, v) := by
  obtain ⟨a1, b1⟩ := u
  obtain ⟨c1, d1⟩ := v
  unfold adjacent at ha
  dsimp at ha
  rcases ha with ⟨h1, h2⟩ | ⟨h1, h2⟩ | ⟨h1, h2⟩ | ⟨h1, h2⟩ <;> subst h1 <;> subst h2
  · rw [posOf_down]
    unfold posOf
    rw [if_neg (by dsimp; omega), if_pos (by dsimp; omega)]
  · rw [posOf_up]
    unfold posOf
    rw [if_pos (by dsimp; omega)]
  · rw [posOf_right]
    unfold posOf
    rw [if_neg (by dsimp; omega), if_neg (by dsimp; omega), if_neg (by dsimp; omega)]
  · rw [posOf_left]
    unfold posOf
    rw [if_neg (by dsimp; omega), if_neg (by dsimp; omega), if_pos (by dsimp; omega)]

/-- Interior margins of the grid: at least `wt` pixels from every border. -/
def pxInterior (w h cs wt y x : Int) : Prop :=
  wt ≤ y ∧ y < gridRows h cs wt - wt ∧ wt ≤ x ∧ x < gridCols w cs wt - wt

theorem pxInterior_pxIn {w h cs wt y x : Int} (hwt : 0 ≤ wt)
    (hp : pxInterior w h cs wt y x) : pxIn w h cs wt y x := by
  obtain ⟨p1, p2, p3, p4⟩ := hp
  exact ⟨by omega, by omega, by omega, by omega⟩

theorem inBlock_pxInterior {w h cs wt : Int} (hcs : 0 < cs) (hwt : 0 ≤ wt) {u : Cell}
    (hin : cellIn w h u) {y x : Int} (hb : inBlock cs wt u y x) :
    pxInterior w h cs wt y x := by
  have hin' : 0 ≤ u.1 ∧ u.1 < h ∧ 0 ≤ u.2 ∧ u.2 < w := hin
  obtain ⟨h1, h2, h3, h4⟩ := hin'
  obtain ⟨⟨hb1, hb2⟩, hb3, hb4⟩ := hb
  have f1 : 0 ≤ wt + u.1 * (cs + wt) := startOf_nonneg (le_of_lt hcs) hwt h1
  have f2 : wt + u.1 * (cs + wt) + cs + wt ≤ gridRows h cs wt :=
    startOf_upper (le_of_lt hcs) hwt h1 h2
  have f3 : 0 ≤ wt + u.2 * (cs + wt) := startOf_nonneg (le_of_lt hcs) hwt h3
  have f4 : wt + u.2 * (cs + wt) + cs + wt ≤ gridCols w cs wt :=
    startOf_upper_col (le_of_lt hcs) hwt h3 h4
  have g1 : wt ≤ wt + u.1 * (cs + wt) := by nlinarith
  have g3 : wt ≤ wt + u.2 * (cs + wt) := by nlinarith
  exact ⟨by linarith, by linarith, by linarith, by linarith⟩

theorem stripAt_pxInterior {w h cs wt : Int} (hcs : 0 < cs) (hwt : 0 ≤ wt) {e : Edge}
    (h1 : cellIn w h e.1) (h2 : cellIn w h e.2) (ha : adjacent e.1 e.2) {y x : Int}
    (hs : stripAt cs wt (posOf e) y x) : pxInterior w h cs wt y x := by
  obtain ⟨⟨a1, b1⟩, c1, d1⟩ := e
  have h1' : 0 ≤ a1 ∧ a1 < h ∧ 0 ≤ b1 ∧ b1 < w := h1
  have h2' : 0 ≤ c1 ∧ c1 < h ∧ 0 ≤ d1 ∧ d1 < w := h2
  unfold adjacent at ha
  dsimp at ha hs
  obtain ⟨i1, i2, i3, i4⟩ := h1'
  rcases ha with ⟨ha1, ha2⟩ | ⟨ha1, ha2⟩ | ⟨ha1, ha2⟩ | ⟨ha1, ha2⟩
  · rw [ha1, ha2, posOf_down] at hs
    obtain ⟨⟨s1, s2⟩, s3, s4⟩ := hs
    obtain ⟨j1, j2, j3, j4⟩ := h2'
    have f1 : 0 ≤ wt + a1 * (cs + wt) := startOf_nonneg (le_of_lt hcs) hwt i1
    have f2 : wt + (a1 + 1) * (cs + wt) + cs + wt ≤ gridRows h cs wt :=
      startOf_upper (le_of_lt hcs) hwt (by omega) (by omega)
    have f3 : 0 ≤ wt + b1 * (cs + wt) := startOf_nonneg (le_of_lt hcs) hwt i3
    have f4 : wt + b1 * (cs + wt) + cs + wt ≤ gridCols w cs wt :=
      startOf_upper_col (le_of_lt hcs) hwt i3 i4
    have key : wt + (a1 + 1) * (cs + wt) = wt + a1 * (cs + wt) + cs + wt := by ring
    have g1 : 0 ≤ a1 * (cs + wt) := by nlinarith
    have g3 : 0 ≤ b1 * (cs + wt) := by nlinarith
    exact ⟨by linarith, by linarith, by linarith, by linarith⟩
  · rw [ha1, ha2, posOf_up] at hs
    obtain ⟨⟨s1, s2⟩, s3, s4⟩ := hs
    obtain ⟨j1, j2, j3, j4⟩ := h2'
    have j1' : 0 ≤ a1 - 1 := by omega
    have f2 : wt + (a1 - 1 + 1) * (cs + wt) + cs + wt ≤ gridRows h cs wt :=
      startOf_upper (le_of_lt hcs) hwt (by omega) (by omega)
    have f3 : 0 ≤ wt + b1 * (cs + wt) := startOf_nonneg (le_of_lt hcs) hwt i3
    have f4 : wt + b1 * (cs + wt) + cs + wt ≤ gridCols w cs wt :=
      startOf_upper_col (le_of_lt hcs) hwt i3 i4
    have key : wt + (a1 - 1 + 1) * (cs + wt) = wt + (a1 - 1) * (cs + wt) + cs + wt := by
      ring
    have g1 : 0 ≤ (a1 - 1) * (cs + wt) := by nlinarith
    have g3 : 0 ≤ b1 * (cs + wt) := by nlinarith
    exact ⟨by linarith, by linarith, by linarith, by linarith⟩
  · rw [ha1, ha2, posOf_right] at hs
    obtain ⟨⟨s1, s2⟩, s3, s4⟩ := hs
    obtain ⟨j1, j2, j3, j4⟩ := h2'
    have f1 : 0 ≤ wt + a1 * (cs + wt) := startOf_nonneg (le_of_lt hcs) hwt i1
    have f2 : wt + a1 * (cs + wt) + cs + wt ≤ gridRows h cs wt :=
      startOf_upper (le_of_lt hcs) hwt i1 i2
    have f4 : wt + (b1 + 1) * (cs + wt) + cs + wt ≤ gridCols w cs wt :=
      startOf_upper_col (le_of_lt hcs) hwt (by omega) (by omega)
    have key : wt + (b1 + 1) * (cs + wt) = wt + b1 * (cs + wt) + cs + wt := by ring
    have g1 : 0 ≤ a1 * (cs + wt) := by nlinarith
    have g3 : 0 ≤ b1 * (cs + wt) := by nlinarith
    exact ⟨by linarith, by linarith, by linarith, by linarith⟩
  · rw [ha1, ha2, posOf_left] at hs
    obtain ⟨⟨s1, s2⟩, s3, s4⟩ := hs
    obtain ⟨j1, j2, j3, j4⟩ := h2'
    have j3' : 0 ≤ b1 - 1 := by omega
    have f1 : 0 ≤ wt + a1 * (cs + wt) := startOf_nonneg (le_of_lt hcs) hwt i1
    have f2 : wt + a1 * (cs + wt) + cs + wt ≤ gridRows h cs wt :=
      startOf_upper (le_of_lt hcs) hwt i1 i2
    have f4 : wt + (b1 - 1 + 1) * (cs + wt) + cs + wt ≤ gridCols w cs wt :=
      startOf_upper_col (le_of_lt hcs) hwt (by omega) (by omega)
    have key : wt + (b1 - 1 + 1) * (cs + wt) = wt + (b1 - 1) * (cs + wt) + cs + wt := by
      ring
    have g1 : 0 ≤ a1 * (cs + wt) := by nlinarith
    have g3 : 0 ≤ (b1 - 1) * (cs + wt) := by nlinarith
    exact ⟨by linarith, by linarith, by linarith, by linarith⟩

theorem edges_open {w h cs wt : Int} {m0 m' : Maze} {E : List Edge} {root : Cell}
    (hcs : 0 < cs) (hwt : 0 ≤ wt)
    (hchar : gridChar w h cs wt m0 m' E)
    (hef : edgeFacts w h root m0 m' E) :
    ∀ e ∈ E, ∀ y x : Int, stripAt cs wt (posOf e) y x → openPx m' y x := by
  intro e he y x hs
  obtain ⟨h1, h2, hadj, -, -, -⟩ := hef e he
  exact (hchar y x).mpr (Or.inr ⟨pxInterior_pxIn hwt (stripAt_pxInterior hcs hwt h1 h2 hadj hs),
    Or.inr ⟨e, he, hs⟩⟩)

theorem blocks_open {w h cs wt : Int} {m0 m' : Maze} {E : List Edge}
    (hcs : 0 < cs) (hwt : 0 ≤ wt)
    (hchar : gridChar w h cs wt m0 m' E) {u : Cell} (hin : cellIn w h u)
    (hv0 : visB m0 u = false) (hv' : visB m' u = true) :
    ∀ y x : Int, inBlock cs wt u y x → openPx m' y x := fun y x hb =>
  (hchar y x).mpr (Or.inr ⟨pxInterior_pxIn hwt (inBlock_pxInterior hcs hwt hin hb),
    Or.inl ⟨u, hin, hv0, hv', hb⟩⟩)

theorem conn_cellReach {w h cs wt : Int} {m0 m' : Maze} {E : List Edge} {root : Cell}
    (hcfg : Cfg m' w h cs wt)
    (hopen : ∀ e ∈ E, ∀ y x : Int, stripAt cs wt (posOf e) y x → openPx m' y x)
    (hef : edgeFacts w h root m0 m' E) :
    ∀ u v : Cell, Conn E u v → cellReach m' u v := by
  intro u v hconn
  refine Relation.ReflTransGen.mono ?_ hconn
  rintro a b ⟨e, he, hor⟩
  obtain ⟨h1, h2, hadj, -, -, -⟩ := hef e he
  obtain ⟨hc1, hc2, hc3, hc4⟩ := hcfg
  rcases hor with rfl | rfl
  · refine ⟨by rw [hc1, hc2]; exact h1, by rw [hc1, hc2]; exact h2, hadj, ?_⟩
    intro y x hs
    rw [hc3, hc4] at hs
    exact hopen _ he y x hs
  · refine ⟨by rw [hc1, hc2]; exact h2, by rw [hc1, hc2]; exact h1,
      adjacent_symm hadj, ?_⟩
    intro y x hs
    rw [hc3, hc4, posOf_symm hadj] at hs
    exact hopen _ he y x hs

theorem border_wall {w h cs wt : Int} {m0 m' : Maze} {E : List Edge} {root : Cell}
    (hcs : 0 < cs) (hwt : 0 ≤ wt)
    (hI' : InvM m' w h cs wt)
    (hreset : ∀ y x : Int, ¬ openPx m0 y x)
    (hchar : gridChar w h cs wt m0 m' E)
    (hef : edgeFacts w h root m0 m' E) :
    ∀ y x : Int, pxIn w h cs wt y x →
      (y < wt ∨ gridRows h cs wt - wt ≤ y ∨ x < wt ∨ gridCols w cs wt - wt ≤ x) →
      idx2 m'.Grid y x = some 1 := by
  intro y x hpx hborder
  have hnotopen : ¬ openPx m' y x := by
    intro hop
    rcases (hchar y x).mp hop with hop0 | ⟨-, hcase⟩
    · exact hreset y x hop0
    · rcases hcase with ⟨u, hin, -, -, hblk⟩ | ⟨e, he, hs⟩
      · obtain ⟨p1, p2, p3, p4⟩ := inBlock_pxInterior hcs hwt hin hblk
        omega
      · obtain ⟨h1, h2, hadj, -, -, -⟩ := hef e he
        obtain ⟨p1, p2, p3, p4⟩ := stripAt_pxInterior hcs hwt h1 h2 hadj hs
        omega
  obtain ⟨-, hgU, -, hbin⟩ := hI'
  obtain ⟨hp1, hp2, hp3, hp4⟩ := hpx
  have hRc : (((gridRows h cs wt).toNat : Int)) = gridRows h cs wt := by omega
  have hCc : (((gridCols w cs wt).toNat : Int)) = gridCols w cs wt := by omega
  obtain ⟨v, hv⟩ := unif_lookup hgU hp1 (by omega) hp3 (by omega)
  rcases hbin y x v hv with h0 | h1v
  · rw [h0] at hv
    exact absurd hv hnotopen
  · rw [h1v] at hv
    exact hv

theorem map_const_len {α β : Type} (l : List α) (k : β) :
    (l.map fun _ => k) = List.replicate l.length k := by
  induction l with
  | nil => rfl
  | cons a t ih => simp only [List.map_cons, List.length_cons, List.replicate_succ, ih]

theorem map_sameDims {α : Type} (g : List (List α)) (f : α → α) :
    sameDims g (g.map fun row => row.map f) := by
  refine ⟨by simp, ?_⟩
  intro i
  rw [List.getD_eq_getElem?_getD, List.getD_eq_getElem?_getD, List.getElem?_map]
  cases hg : g[i]? <;> simp

theorem map_const_eq_of_sameDims {α β : Type} {g g2 : List (List α)}
    (hd : sameDims g g2) (k : β) :
    (g2.map fun row => row.map fun _ => k) = g.map fun row => row.map fun _ => k := by
  have hlen := hd.1
  apply List.ext_getElem
  · simp [hlen]
  · intro i hi1 hi2
    simp only [List.length_map] at hi1 hi2
    simp only [List.getElem_map]
    rw [map_const_len, map_const_len]
    have hrow := hd.2 i
    rw [List.getD_eq_getElem?_getD, List.getD_eq_getElem?_getD,
      List.getElem?_eq_getElem hi1, List.getElem?_eq_getElem hi2] at hrow
    simp only [Option.getD_some] at hrow
    rw [hrow]

/-- `Generate` preserves the configuration fields and the allocated shapes of
the pixel grid and the visited matrix. -/
theorem Generate_frame {m m' : Maze} {perms : Nat → List Nat}
    (h : Generate m perms = some m') :
    m'.CellSize = m.CellSize ∧ m'.WallThickness = m.WallThickness ∧
    m'.Cols = m.Cols ∧ m'.Rows = m.Rows ∧
    sameDims m.Grid m'.Grid ∧ sameDims m.Visited m'.Visited := by
  unfold Generate at h
  obtain ⟨a1, a2, a3, a4, a5, a6⟩ := dfs_frame perms _ _ _ _ _ h
  exact ⟨a1, a2, a3, a4, sameDims_trans (map_sameDims m.Grid _) a5,
    sameDims_trans (map_sameDims m.Visited _) a6⟩

theorem resetM_eq_of_frame {m m1 : Maze}
    (f1 : m1.CellSize = m.CellSize) (f2 : m1.WallThickness = m.WallThickness)
    (f3 : m1.Cols = m.Cols) (f4 : m1.Rows = m.Rows)
    (d5 : sameDims m.Grid m1.Grid) (d6 : sameDims m.Visited m1.Visited) :
    resetM m1 = resetM m := by
  unfold resetM
  rw [map_const_eq_of_sameDims d5, map_const_eq_of_sameDims d6, f1, f2, f3, f4]

/-- Running `Generate` again after a previous `Generate` behaves exactly as if
it were run on the original maze: the reset wipes all state. -/
theorem Generate_restart {m m1 : Maze} {perms1 : Nat → List Nat}
    (h : Generate m perms1 = some m1) (perms2 : Nat → List Nat) :
    Generate m1 perms2 = Generate m perms2 := by
  obtain ⟨f1, f2, f3, f4, d5, d6⟩ := Generate_frame h
  unfold Generate
  rw [resetM_eq_of_frame f1 f2 f3 f4 d5 d6, f3, f4]

/-! ## From `NewMaze` into the run bundle -/

theorem NewMaze_InvM (w h cs wt : Int) : InvM (NewMaze w h cs wt) w h cs wt := by
  refine ⟨⟨rfl, rfl, rfl, rfl⟩, ⟨?_, ?_⟩, ⟨?_, ?_⟩, ?_⟩
  · simp [NewMaze, gridRows]
  · intro row hrow
    rw [List.eq_of_mem_replicate hrow]
    simp [gridCols]
  · simp [NewMaze]
  · intro row hrow
    rw [List.eq_of_mem_replicate hrow]
    simp
  · intro y x v hv
    unfold idx2 at hv
    split_ifs at hv with hyx
    · left
      rcases hg : (NewMaze w h cs wt).Grid[y.toNat]? with - | row
      · rw [hg] at hv
        exact Option.noConfusion hv
      · rw [hg] at hv
        simp only [Option.some_bind] at hv
        have hrow := List.eq_of_mem_replicate (List.getElem?_mem hg)
        rcases he : row[x.toNat]? with - | e
        · rw [he] at hv
          exact Option.noConfusion hv
        · rw [he] at hv
          have hev : e = v := Option.some_injective _ hv
          have hmem : e ∈ row := List.getElem?_mem he
          rw [hrow] at hmem
          have := List.eq_of_mem_replicate hmem
          omega

theorem visB_reset_false {m : Maze} {w h cs wt : Int} (hw : 0 < w) (hh : 0 < h)
    (hI : InvM m w h cs wt) {u : Cell} (hu : cellIn w h u) :
    visB (resetM m) u = false := by
  obtain ⟨-, -, hvU, -⟩ := hI
  obtain ⟨h1, h2, h3, h4⟩ := hu
  exact visB_resetM hvU h1 (by omega) h3 (by omega)

theorem EStep_symm {E : List Edge} {u v : Cell} (h : EStep E u v) : EStep E v u := by
  obtain ⟨e, he, hor⟩ := h
  exact ⟨e, he, hor.symm⟩

theorem Conn_symm {E : List Edge} {u v : Cell} (h : Conn E u v) : Conn E v u := by
  induction h with
  | refl => exact Relation.ReflTransGen.refl
  | tail hab hbc ih => exact Relation.ReflTransGen.head (EStep_symm hbc) ih

/-- The facts about `Generate` that the individual claims draw on. -/
theorem Generate_spec {w h cs wt : Int} {perms : Nat → List Nat}
    (hper : ∀ i : Nat, List.Perm (perms i) [0, 1, 2, 3])
    (hw : 0 < w) (hh : 0 < h) (hcs : 0 < cs) (hwt : 0 ≤ wt)
    {m m' : Maze} (hI : InvM m w h cs wt)
    (hgen : Generate m perms = some m') :
    InvM m' w h cs wt ∧
    (∃ E : List Edge, DfsPost w h cs wt (resetM m) m' (0, 0) E ∧
      E.length + 1 = h.toNat * w.toNat) ∧
    (∀ u : Cell, cellIn w h u → visB m' u = true) := by
  obtain ⟨m2, E, hg, -, -, hI2, hpost, hvis, -, hlen⟩ :=
    Generate_main perms hper hw hh hcs hwt hI
  rw [hgen] at hg
  obtain rfl : m2 = m' := Option.some_injective _ hg.symm
  exact ⟨hI2, ⟨E, hpost, hlen⟩, hvis⟩

/-- Every cell of a generated maze carries a fully open block. -/
theorem Generate_blockOpen {w h cs wt : Int} {perms : Nat → List Nat}
    (hper : ∀ i : Nat, List.Perm (perms i) [0, 1, 2, 3])
    (hw : 0 < w) (hh : 0 < h) (hcs : 0 < cs) (hwt : 0 ≤ wt)
    {m m' : Maze} (hI : InvM m w h cs wt)
    (hgen : Generate m perms = some m')
    {u : Cell} (hu : cellIn w h u) : blockOpen m' u := by
  obtain ⟨hI2, ⟨E, hpost, -⟩, hvis⟩ := Generate_spec hper hw hh hcs hwt hI hgen
  obtain ⟨⟨-, -, hc3, hc4⟩, -, -, -⟩ := hI2
  intro y x hb
  rw [hc3, hc4] at hb
  exact blocks_open hcs hwt hpost.char hu (visB_reset_false hw hh hI hu)
    (hvis u hu) y x hb

/-- Any two cells of a generated maze are joined by open corridors. -/
theorem Generate_cellReach {w h cs wt : Int} {perms : Nat → List Nat}
    (hper : ∀ i : Nat, List.Perm (perms i) [0, 1, 2, 3])
    (hw : 0 < w) (hh : 0 < h) (hcs : 0 < cs) (hwt : 0 ≤ wt)
    {m m' : Maze} (hI : InvM m w h cs wt)
    (hgen : Generate m perms = some m')
    {u v : Cell} (hu : cellIn w h u) (hv : cellIn w h v) :
    cellReach m' u v := by
  obtain ⟨hI2, ⟨E, hpost, -⟩, hvis⟩ := Generate_spec hper hw hh hcs hwt hI hgen
  have hcfg : Cfg m' w h cs wt := hI2.1
  have hopen := edges_open hcs hwt hpost.char hpost.efacts
  have hto : ∀ z : Cell, cellIn w h z → Conn E (0, 0) z := by
    intro z hz
    rcases hpost.conn z hz (hvis z hz) with hold | ⟨hc, -⟩
    · rw [visB_reset_false hw hh hI hz] at hold
      exact Bool.noConfusion hold
    · exact hc
  exact Relation.ReflTransGen.trans
    (conn_cellReach hcfg hopen hpost.efacts u (0, 0) (Conn_symm (hto u hu)))
    (conn_cellReach hcfg hopen hpost.efacts (0, 0) v (hto v hv))

/-! ## Counting the open connections -/

theorem cellBand_disj_wallBand {cs wt k r y : Int} (hcs : 0 < cs) (hwt : 0 ≤ wt)
    (hc : cellBand cs wt k y) (hw : wallBand cs wt r y) : False := by
  obtain ⟨c1, c2⟩ := hc
  obtain ⟨w1, w2⟩ := hw
  rcases le_or_lt k r with hkr | hkr
  · have := mul_le_mul_of_nonneg_right hkr (by linarith : (0:Int) ≤ cs + wt)
    linarith
  · have hk1 : r + 1 ≤ k := by omega
    have := mul_le_mul_of_nonneg_right hk1 (by linarith : (0:Int) ≤ cs + wt)
    have e1 : (r + 1) * (cs + wt) = r * (cs + wt) + cs + wt := by ring
    linarith

theorem cellBand_inj {cs wt k k' y : Int} (hcs : 0 < cs) (hwt : 0 ≤ wt)
    (h1 : cellBand cs wt k y) (h2 : cellBand cs wt k' y) : k = k' := by
  by_contra hne
  obtain ⟨a1, a2⟩ := h1
  obtain ⟨b1, b2⟩ := h2
  rcases lt_or_gt_of_ne hne with hlt | hlt
  · have hk1 : k + 1 ≤ k' := by omega
    have := mul_le_mul_of_nonneg_right hk1 (by linarith : (0:Int) ≤ cs + wt)
    have e1 : (k + 1) * (cs + wt) = k * (cs + wt) + cs + wt := by ring
    linarith
  · have hk1 : k' + 1 ≤ k := by omega
    have := mul_le_mul_of_nonneg_right hk1 (by linarith : (0:Int) ≤ cs + wt)
    have e1 : (k' + 1) * (cs + wt) = k' * (cs + wt) + cs + wt := by ring
    linarith

theorem wallBand_inj {cs wt r r' y : Int} (hcs : 0 < cs) (hwt : 0 ≤ wt)
    (h1 : wallBand cs wt r y) (h2 : wallBand cs wt r' y) : r = r' := by
  by_contra hne
  obtain ⟨a1, a2⟩ := h1
  obtain ⟨b1, b2⟩ := h2
  rcases lt_or_gt_of_ne hne with hlt | hlt
  · have hk1 : r + 1 ≤ r' := by omega
    have := mul_le_mul_of_nonneg_right hk1 (by linarith : (0:Int) ≤ cs + wt)
    have e1 : (r + 1) * (cs + wt) = r * (cs + wt) + cs + wt := by ring
    linarith
  · have hk1 : r' + 1 ≤ r := by omega
    have := mul_le_mul_of_nonneg_right hk1 (by linarith : (0:Int) ≤ cs + wt)
    have e1 : (r' + 1) * (cs + wt) = r' * (cs + wt) + cs + wt := by ring
    linarith

/-- Two wall strips sharing a pixel are the same wall position. -/
theorem stripAt_inj {cs wt : Int} (hcs : 0 < cs) (hwt : 0 ≤ wt) {p q : WallPos}
    {y x : Int} (hp : stripAt cs wt p y x) (hq : stripAt cs wt q y x) : p = q := by
  obtain ⟨bp, rp, cp⟩ := p
  obtain ⟨bq, rq, cq⟩ := q
  cases bp <;> cases bq <;> dsimp [stripAt] at hp hq
  · rw [cellBand_inj hcs hwt hp.1 hq.1, wallBand_inj hcs hwt hp.2 hq.2]
  · exact (cellBand_disj_wallBand hcs hwt hp.1 hq.1).elim
  · exact (cellBand_disj_wallBand hcs hwt hq.1 hp.1).elim
  · rw [wallBand_inj hcs hwt hp.1 hq.1, cellBand_inj hcs hwt hp.2 hq.2]

/-- With walls at least one pixel thick, every wall strip holds its corner
pixel. -/
theorem stripAt_corner {cs wt : Int} (hcs : 0 < cs) (hwt : 1 ≤ wt) (p : WallPos) :
    stripAt cs wt p
      (if p.1 then wt + p.2.1 * (cs + wt) + cs else wt + p.2.1 * (cs + wt))
      (if p.1 then wt + p.2.2 * (cs + wt) else wt + p.2.2 * (cs + wt) + cs) := by
  obtain ⟨b, r, c⟩ := p
  cases b <;> dsimp [stripAt] <;> refine ⟨⟨le_refl _, ?_⟩, le_refl _, ?_⟩
  · linarith
  · nlinarith
  · nlinarith
  · linarith

/-- The executable strip test agrees with the propositional strip openness. -/
theorem stripOpenB_iff {m : Maze} {w h cs wt : Int} (hI : InvM m w h cs wt)
    (hcs : 0 < cs) (hwt : 0 ≤ wt) (p : WallPos) :
    stripOpenB m p = true ↔ ∀ y x : Int, stripAt cs wt p y x → openPx m y x := by
  obtain ⟨⟨-, -, hc3, hc4⟩, -, -, -⟩ := hI
  obtain ⟨b, r, c⟩ := p
  cases b
  · have hred : stripOpenB m (false, r, c) =
        ((List.range cs.toNat).all fun (dy : Nat) => (List.range wt.toNat).all
          fun (dx : Nat) => idx2 m.Grid ((wt + r * (cs + wt)) + (dy : Int))
            ((wt + c * (cs + wt) + cs) + (dx : Int)) == some 0) := by
      unfold stripOpenB
      rw [hc3, hc4]
      rfl
    rw [hred, List.all_eq_true]
    obtain ⟨A, hA⟩ : ∃ A, A = wt + r * (cs + wt) := ⟨_, rfl⟩
    obtain ⟨B, hB⟩ : ∃ B, B = wt + c * (cs + wt) := ⟨_, rfl⟩
    have e1 : wt + (c + 1) * (cs + wt) = B + cs + wt := by rw [hB]; ring
    constructor
    · intro hall y x hs
      dsimp [stripAt, cellBand, wallBand] at hs
      rw [← hA, ← hB, e1] at hs
      obtain ⟨⟨s1, s2⟩, s3, s4⟩ := hs
      have h1 := hall (y - A).toNat (List.mem_range.mpr (by omega))
      rw [List.all_eq_true] at h1
      have h2 := h1 (x - B - cs).toNat (List.mem_range.mpr (by omega))
      rw [beq_iff_eq] at h2
      rw [← hA, ← hB] at h2
      have ey : A + (((y - A).toNat : Nat) : Int) = y := by omega
      have ex : B + cs + (((x - B - cs).toNat : Nat) : Int) = x := by omega
      rw [ey, ex] at h2
      exact h2
    · intro hstrip dy hdy
      rw [List.all_eq_true]
      intro dx hdx
      rw [beq_iff_eq]
      rw [List.mem_range] at hdy hdx
      apply hstrip
      dsimp [stripAt, cellBand, wallBand]
      rw [← hA, ← hB, e1]
      refine ⟨⟨by omega, by omega⟩, by omega, by omega⟩
  · have hred : stripOpenB m (true, r, c) =
        ((List.range wt.toNat).all fun (dy : Nat) => (List.range cs.toNat).all
          fun (dx : Nat) => idx2 m.Grid ((wt + r * (cs + wt) + cs) + (dy : Int))
            ((wt + c * (cs + wt)) + (dx : Int)) == some 0) := by
      unfold stripOpenB
      rw [hc3, hc4]
      rfl
    rw [hred, List.all_eq_true]
    obtain ⟨A, hA⟩ : ∃ A, A = wt + r * (cs + wt) := ⟨_, rfl⟩
    obtain ⟨B, hB⟩ : ∃ B, B = wt + c * (cs + wt) := ⟨_, rfl⟩
    have e1 : wt + (r + 1) * (cs + wt) = A + cs + wt := by rw [hA]; ring
    constructor
    · intro hall y x hs
      dsimp [stripAt, cellBand, wallBand] at hs
      rw [← hA, ← hB, e1] at hs
      obtain ⟨⟨s1, s2⟩, s3, s4⟩ := hs
      have h1 := hall (y - A - cs).toNat (List.mem_range.mpr (by omega))
      rw [List.all_eq_true] at h1
      have h2 := h1 (x - B).toNat (List.mem_range.mpr (by omega))
      rw [beq_iff_eq] at h2
      rw [← hA, ← hB] at h2
      have ey : A + cs + (((y - A - cs).toNat : Nat) : Int) = y := by omega
      have ex : B + (((x - B).toNat : Nat) : Int) = x := by omega
      rw [ey, ex] at h2
      exact h2
    · intro hstrip dy hdy
      rw [List.all_eq_true]
      intro dx hdx
      rw [beq_iff_eq]
      rw [List.mem_range] at hdy hdx
      apply hstrip
      dsimp [stripAt, cellBand, wallBand]
      rw [← hA, ← hB, e1]
      refine ⟨⟨by omega, by omega⟩, by omega, by omega⟩

theorem mem_wallPositions {m : Maze} {w h : Int}
    (hc1 : m.Cols = w) (hc2 : m.Rows = h) (hw : 0 < w) (hh : 0 < h) (p : WallPos) :
    p ∈ wallPositions m ↔
      ((p.1 = true ∧ 0 ≤ p.2.1 ∧ p.2.1 < h - 1 ∧ 0 ≤ p.2.2 ∧ p.2.2 < w) ∨
       (p.1 = false ∧ 0 ≤ p.2.1 ∧ p.2.1 < h ∧ 0 ≤ p.2.2 ∧ p.2.2 < w - 1)) := by
  obtain ⟨b, r, c⟩ := p
  unfold wallPositions
  rw [hc1, hc2]
  simp only [List.mem_append, List.mem_flatMap, List.mem_map, List.mem_range]
  constructor
  · rintro (⟨rr, hrr, cc, hcc, heq⟩ | ⟨rr, hrr, cc, hcc, heq⟩)
    · simp only [Prod.mk.injEq] at heq
      obtain ⟨hb, hr, hc⟩ := heq
      exact Or.inl ⟨hb.symm, by omega, by omega, by omega, by omega⟩
    · simp only [Prod.mk.injEq] at heq
      obtain ⟨hb, hr, hc⟩ := heq
      exact Or.inr ⟨hb.symm, by omega, by omega, by omega, by omega⟩
  · rintro (⟨hb, h1, h2, h3, h4⟩ | ⟨hb, h1, h2, h3, h4⟩)
    · subst hb
      refine Or.inl ⟨r.toNat, by omega, c.toNat, by omega, ?_⟩
      simp only [Prod.mk.injEq]
      exact ⟨by trivial, by omega, by omega⟩
    · subst hb
      refine Or.inr ⟨r.toNat, by omega, c.toNat, by omega, ?_⟩
      simp only [Prod.mk.injEq]
      exact ⟨by trivial, by omega, by omega⟩

theorem wallPositions_nodup (m : Maze) : (wallPositions m).Nodup := by
  unfold wallPositions
  rw [List.nodup_append]
  refine ⟨?_, ?_, ?_⟩
  · rw [List.nodup_flatMap]
    refine ⟨?_, ?_⟩
    · intro rr hrr
      refine List.Nodup.map ?_ (List.nodup_range _)
      intro c1 c2 hcc
      simp only [Prod.mk.injEq] at hcc
      omega
    · rw [List.pairwise_iff_forall_sublist]
      intro r1 r2 hsub
      have hne : r1 ≠ r2 := by
        have := hsub.nodup (List.nodup_range _)
        simp only [List.nodup_cons, List.mem_singleton] at this
        exact this.1
      intro p hp1 hp2
      simp only [Function.onFun, List.mem_map, List.mem_range] at hp1 hp2
      obtain ⟨c1, -, he1⟩ := hp1
      obtain ⟨c2, -, he2⟩ := hp2
      rw [← he2] at he1
      simp only [Prod.mk.injEq] at he1
      omega
  · rw [List.nodup_flatMap]
    refine ⟨?_, ?_⟩
    · intro rr hrr
      refine List.Nodup.map ?_ (List.nodup_range _)
      intro c1 c2 hcc
      simp only [Prod.mk.injEq] at hcc
      omega
    · rw [List.pairwise_iff_forall_sublist]
      intro r1 r2 hsub
      have hne : r1 ≠ r2 := by
        have := hsub.nodup (List.nodup_range _)
        simp only [List.nodup_cons, List.mem_singleton] at this
        exact this.1
      intro p hp1 hp2
      simp only [Function.onFun, List.mem_map, List.mem_range] at hp1 hp2
      obtain ⟨c1, -, he1⟩ := hp1
      obtain ⟨c2, -, he2⟩ := hp2
      rw [← he2] at he1
      simp only [Prod.mk.injEq] at he1
      omega
  · intro p hp1 hp2
    simp only [List.mem_flatMap, List.mem_map, List.mem_range] at hp1 hp2
    obtain ⟨r1, -, c1, -, he1⟩ := hp1
    obtain ⟨r2, -, c2, -, he2⟩ := hp2
    rw [← he2] at he1
    simp only [Prod.mk.injEq] at he1
    exact Bool.noConfusion he1.1

/-- The wall position of a valid carved edge is a listed wall position. -/
theorem posOf_valid {w h : Int} {e : Edge} (h1 : cellIn w h e.1) (h2 : cellIn w h e.2)
    (ha : adjacent e.1 e.2) :
    ((posOf e).1 = true ∧ 0 ≤ (posOf e).2.1 ∧ (posOf e).2.1 < h - 1 ∧
      0 ≤ (posOf e).2.2 ∧ (posOf e).2.2 < w) ∨
    ((posOf e).1 = false ∧ 0 ≤ (posOf e).2.1 ∧ (posOf e).2.1 < h ∧
      0 ≤ (posOf e).2.2 ∧ (posOf e).2.2 < w - 1) := by
  obtain ⟨⟨a1, b1⟩, c1, d1⟩ := e
  have h1' : 0 ≤ a1 ∧ a1 < h ∧ 0 ≤ b1 ∧ b1 < w := h1
  have h2' : 0 ≤ c1 ∧ c1 < h ∧ 0 ≤ d1 ∧ d1 < w := h2
  unfold adjacent at ha
  dsimp at ha
  obtain ⟨i1, i2, i3, i4⟩ := h1'
  obtain ⟨j1, j2, j3, j4⟩ := h2'
  rcases ha with ⟨ha1, ha2⟩ | ⟨ha1, ha2⟩ | ⟨ha1, ha2⟩ | ⟨ha1, ha2⟩
  · rw [ha1, ha2, posOf_down]
    dsimp only
    exact Or.inl ⟨rfl, by omega, by omega, by omega, by omega⟩
  · rw [ha1, ha2, posOf_up]
    dsimp only
    exact Or.inl ⟨rfl, by omega, by omega, by omega, by omega⟩
  · rw [ha1, ha2, posOf_right]
    dsimp only
    exact Or.inr ⟨rfl, by omega, by omega, by omega, by omega⟩
  · rw [ha1, ha2, posOf_left]
    dsimp only
    exact Or.inr ⟨rfl, by omega, by omega, by omega, by omega⟩

/-- Counting the satisfying elements of a duplicate-free list when they are
exactly the members of a duplicate-free sublist. -/
theorem countP_eq_length_of_unique {α : Type} {W L : List α} {q : α → Bool}
    (hW : W.Nodup) (hL : L.Nodup) (hsub : ∀ a ∈ L, a ∈ W)
    (hq : ∀ a ∈ W, q a = true ↔ a ∈ L) : W.countP q = L.length := by
  rw [List.countP_eq_length_filter]
  have hperm : List.Perm (W.filter q) L := by
    rw [List.perm_ext_iff_of_nodup (hW.filter q) hL]
    intro a
    rw [List.mem_filter]
    constructor
    · rintro ⟨haW, haq⟩
      exact (hq a haW).mp haq
    · intro haL
      exact ⟨hsub a haL, (hq a (hsub a haL)).mpr haL⟩
  exact hperm.length_eq

/-- A generated maze has exactly `rows*cols - 1` open inter-cell connections
when walls are at least one pixel thick. -/
theorem Generate_openConnCount {w h cs wt : Int} {perms : Nat → List Nat}
    (hper : ∀ i : Nat, List.Perm (perms i) [0, 1, 2, 3])
    (hw : 0 < w) (hh : 0 < h) (hcs : 0 < cs) (hwt1 : 1 ≤ wt)
    {m m' : Maze} (hI : InvM m w h cs wt)
    (hgen : Generate m perms = some m') :
    openConnCount m' = h.toNat * w.toNat - 1 := by
  have hwt : 0 ≤ wt := by omega
  obtain ⟨hI2, ⟨E, hpost, hlen⟩, hvis⟩ := Generate_spec hper hw hh hcs hwt hI hgen
  obtain ⟨hc1, hc2, hc3, hc4⟩ := hI2.1
  have hopen := edges_open hcs hwt hpost.char hpost.efacts
  have hLnd : (E.map posOf).Nodup := List.pairwise_map.mpr hpost.pw
  have hsub : ∀ p ∈ E.map posOf, p ∈ wallPositions m' := by
    intro p hp
    rw [List.mem_map] at hp
    obtain ⟨e, he, rfl⟩ := hp
    obtain ⟨he1, he2, hadj, -, -, -⟩ := hpost.efacts e he
    rw [mem_wallPositions hc1 hc2 hw hh]
    exact posOf_valid he1 he2 hadj
  have hq : ∀ p ∈ wallPositions m', (stripOpenB m' p = true ↔ p ∈ E.map posOf) := by
    intro p hp
    rw [stripOpenB_iff hI2 hcs hwt]
    constructor
    · intro hstrip
      have hcorner := stripAt_corner hcs hwt1 p
      have hopenc := hstrip _ _ hcorner
      rcases (hpost.char _ _).mp hopenc with h0 | ⟨-, hcase⟩
      · exact absurd h0 (resetM_wall m _ _)
      · rcases hcase with ⟨u, -, -, -, hblk⟩ | ⟨e, he, hs⟩
        · obtain ⟨bb, rr, cc⟩ := p
          cases bb
          · exact (cellBand_disj_wallBand hcs hwt hblk.2 hcorner.2).elim
          · exact (cellBand_disj_wallBand hcs hwt hblk.1 hcorner.1).elim
        · rw [List.mem_map]
          exact ⟨e, he, stripAt_inj hcs hwt hs hcorner⟩
    · intro hp2
      rw [List.mem_map] at hp2
      obtain ⟨e, he, rfl⟩ := hp2
      exact hopen e he
  have hcount := countP_eq_length_of_unique (wallPositions_nodup m') hLnd hsub hq
  unfold openConnCount
  rw [hcount, List.length_map]
  omega

/-! ## Determinism support -/

theorem map_const_of_unif {α β : Type} {g : List (List α)} {R C : Nat}
    (hu : Unif g R C) (k : β) :
    (g.map fun row => row.map fun _ => k) =
      List.replicate R (List.replicate C k) := by
  obtain ⟨hlen, hrow⟩ := hu
  apply List.ext_getElem
  · simp [hlen]
  · intro i hi1 hi2
    simp only [List.length_map] at hi1
    simp only [List.getElem_map, List.getElem_replicate]
    rw [map_const_len, hrow _ (List.getElem_mem _)]

theorem resetM_eq_of_InvM {m1 m2 : Maze} {w h cs wt : Int}
    (h1 : InvM m1 w h cs wt) (h2 : InvM m2 w h cs wt) : resetM m1 = resetM m2 := by
  obtain ⟨⟨a1, a2, a3, a4⟩, g1, v1, -⟩ := h1
  obtain ⟨⟨b1, b2, b3, b4⟩, g2, v2, -⟩ := h2
  unfold resetM
  have hg := (map_const_of_unif g1 (1 : Int)).trans (map_const_of_unif g2 (1 : Int)).symm
  have hv := (map_const_of_unif v1 false).trans (map_const_of_unif v2 false).symm
  cases m1
  cases m2
  dsimp at hg hv a1 a2 a3 a4 b1 b2 b3 b4 ⊢
  rw [hg, hv, a1, a2, a3, a4, b1, b2, b3, b4]

theorem Generate_det {m1 m2 : Maze} {w h cs wt : Int} (perms : Nat → List Nat)
    (h1 : InvM m1 w h cs wt) (h2 : InvM m2 w h cs wt) :
    Generate m1 perms = Generate m2 perms := by
  unfold Generate
  rw [resetM_eq_of_InvM h1 h2, h1.1.2.1, h1.1.1, h2.1.2.1, h2.1.1]

/-- On a zero-sized configuration the very first write
`m.Visited[0][0] = true` indexes an empty matrix: the run fails (the Go
program panics) instead of completing as a no-op. -/
theorem Generate_zero_none (w h cs wt : Int) (hzero : w = 0 ∨ h = 0)
    (perms : Nat → List Nat) :
    Generate (NewMaze w h cs wt) perms = none := by
  have hv : (resetM (NewMaze w h cs wt)).Visited =
      List.replicate h.toNat (List.replicate w.toNat false) := by
    show (List.replicate h.toNat (List.replicate w.toNat false)).map
        (fun row => row.map fun _ => false) = _
    rw [List.map_replicate, map_const_len, List.length_replicate]
  have hsv : setVis (resetM (NewMaze w h cs wt)).Visited 0 0 = none := by
    rw [hv]
    unfold setVis
    rw [if_pos ⟨le_refl (0 : Int), le_refl (0 : Int)⟩]
    rcases hzero with rfl | rfl
    · cases hh' : h.toNat with
      | zero => rfl
      | succ k =>
        rw [List.replicate_succ]
        simp
    · rfl
  unfold Generate
  simp only [dfs]
  rw [hsv]

/-! ## Concrete instances for the closed statements -/

/-- A seed stream in which every draw is the identity permutation of 0..3. -/
def permsA : Nat → List Nat := fun _ => [0, 1, 2, 3]

theorem permsA_perm : ∀ i : Nat, List.Perm (permsA i) [0, 1, 2, 3] :=
  fun _ => List.Perm.refl _

/-- The maze `Generate` produces from `NewMaze 2 2 1 1` under `permsA`. -/
def M1 : Maze :=
  ⟨[[1, 1, 1, 1, 1], [1, 0, 1, 0, 1], [1, 0, 1, 0, 1], [1, 0, 0, 0, 1], [1, 1, 1, 1, 1]],
   [[true, true], [true, true]], 4, 1, 1, 2, 2⟩

/-- The maze `Generate` produces from `NewMaze 2 1 4 1` under `permsA`. -/
def M2 : Maze :=
  ⟨[[1, 1, 1, 1, 1, 1, 1, 1, 1, 1, 1], [1, 0, 0, 0, 0, 0, 0, 0, 0, 0, 1],
    [1, 0, 0, 0, 0, 0, 0, 0, 0, 0, 1], [1, 0, 0, 0, 0, 0, 0, 0, 0, 0, 1],
    [1, 0, 0, 0, 0, 0, 0, 0, 0, 0, 1], [1, 1, 1, 1, 1, 1, 1, 1, 1, 1, 1]],
   [[true, true]], 2, 4, 1, 2, 1⟩

/-- The maze `Generate` produces from `NewMaze 2 2 1 0` under `permsA`. -/
def M0 : Maze := ⟨[[0, 0], [0, 0]], [[true, true], [true, true]], 4, 1, 0, 2, 2⟩

/-! ## The claims -/

/-- C1: for every configuration with cols > 0, rows > 0, cellSize > 0,
wallThickness ≥ 0 and every seed stream of permutations of 0..3, after a
completing `Generate` the open pixels are connected at the cell level: the
`cellSize × cellSize` block of cell `(0, 0)` is fully open, the block of
every other cell is fully open, and every cell is reachable from `(0, 0)`
through open-pixel corridors. -/
theorem C1_connectivity {w h cs wt : Int} {perms : Nat → List Nat}
    (hper : ∀ i : Nat, List.Perm (perms i) [0, 1, 2, 3])
    (hw : 0 < w) (hh : 0 < h) (hcs : 0 < cs) (hwt : 0 ≤ wt)
    {m mz : Maze} (hI : InvM m w h cs wt) (hgen : Generate m perms = some mz)
    (v : Cell) (hv : cellIn w h v) :
    blockOpen mz (0, 0) ∧ blockOpen mz v ∧ cellReach mz (0, 0) v :=
  ⟨Generate_blockOpen hper hw hh hcs hwt hI hgen ⟨le_refl 0, hh, le_refl 0, hw⟩,
   Generate_blockOpen hper hw hh hcs hwt hI hgen hv,
   Generate_cellReach hper hw hh hcs hwt hI hgen ⟨le_refl 0, hh, le_refl 0, hw⟩ hv⟩

theorem C1_connectivity_witness :
    blockOpen M1 (0, 0) ∧ blockOpen M1 (1, 1) ∧ cellReach M1 (0, 0) (1, 1) :=
  C1_connectivity permsA_perm (by decide) (by decide) (by decide) (by decide)
    (NewMaze_InvM 2 2 1 1) (by decide) (1, 1) ⟨by decide, by decide, by decide, by decide⟩

/-- C2 (amended: wallThickness ≥ 1 instead of ≥ 0): the generated maze has
exactly rows*cols - 1 open inter-cell connections.  At wallThickness = 0 the
count is wrong, see the counterexample. -/
theorem C2_tree_count {w h cs wt : Int} {perms : Nat → List Nat}
    (hper : ∀ i : Nat, List.Perm (perms i) [0, 1, 2, 3])
    (hw : 0 < w) (hh : 0 < h) (hcs : 0 < cs) (hwt1 : 1 ≤ wt)
    {m mz : Maze} (hI : InvM m w h cs wt) (hgen : Generate m perms = some mz) :
    openConnCount mz = h.toNat * w.toNat - 1 :=
  Generate_openConnCount hper hw hh hcs hwt1 hI hgen

theorem C2_tree_count_witness : openConnCount M1 = 3 :=
  C2_tree_count permsA_perm (by decide) (by decide) (by decide) (by decide)
    (NewMaze_InvM 2 2 1 1) (by decide)

/-- C2 as literally stated (wallThickness ≥ 0) fails at wallThickness = 0:
on a 2-by-2 cell grid the generated maze has 4 open inter-cell connections,
not rows*cols - 1 = 3, because zero-width wall strips are vacuously open. -/
theorem C2_count_counterexample :
    Generate (NewMaze 2 2 1 0) permsA = some M0 ∧ openConnCount M0 ≠ 2 * 2 - 1 :=
  ⟨by decide, by decide⟩

/-- C3: the occupancy grid left by `Generate` is a function of the
configuration and the seed stream only: any two structurally valid instances
of the same configuration give identical results, and a second `Generate` on
an instance already generated into behaves exactly as on the original. -/
theorem C3_deterministic {w h cs wt : Int} {m1 m2 : Maze}
    (h1 : InvM m1 w h cs wt) (h2 : InvM m2 w h cs wt) (perms : Nat → List Nat) :
    Generate m1 perms = Generate m2 perms ∧
    ∀ (mz : Maze) (perms0 : Nat → List Nat), Generate m1 perms0 = some mz →
      Generate mz perms = Generate m1 perms :=
  ⟨Generate_det perms h1 h2, fun _ _ hg => Generate_restart hg perms⟩

theorem C3_deterministic_witness :
    Generate M1 permsA = Generate (NewMaze 2 2 1 1) permsA :=
  (C3_deterministic (NewMaze_InvM 2 2 1 1) (NewMaze_InvM 2 2 1 1) permsA).2
    M1 permsA (by decide)

/-- C4: `Size` returns exactly (cols*cellSize + (cols+1)*wallThickness,
rows*cellSize + (rows+1)*wallThickness); this equals the allocated pixel
grid's dimensions (outer length and every row length), and the result is
unchanged by running `Generate` (it reads only the configuration fields; as
a pure function it has no side effects). -/
theorem C4_size {w h cs wt : Int} {m : Maze} (hI : InvM m w h cs wt)
    (hR : 0 ≤ gridRows h cs wt) (hC : 0 ≤ gridCols w cs wt) :
    Size m = (w * cs + (w + 1) * wt, h * cs + (h + 1) * wt) ∧
    (m.Grid.length : Int) = gridRows h cs wt ∧
    (∀ row ∈ m.Grid, (row.length : Int) = gridCols w cs wt) ∧
    ∀ (mz : Maze) (perms : Nat → List Nat), Generate m perms = some mz →
      Size mz = Size m := by
  obtain ⟨⟨hc1, hc2, hc3, hc4⟩, ⟨hgl, hgr⟩, -, -⟩ := hI
  refine ⟨?_, ?_, ?_, ?_⟩
  · unfold Size
    rw [hc1, hc2, hc3, hc4]
  · rw [hgl]
    unfold gridRows gridCols at *
    omega
  · intro row hrow
    rw [hgr row hrow]
    unfold gridRows gridCols at *
    omega
  · intro mz perms hg
    obtain ⟨f1, f2, f3, f4, -, -⟩ := Generate_frame hg
    unfold Size
    rw [f1, f2, f3, f4]

theorem C4_size_witness :
    Size (NewMaze 2 2 1 1) = (2 * 1 + (2 + 1) * 1, 2 * 1 + (2 + 1) * 1) :=
  (C4_size (NewMaze_InvM 2 2 1 1) (by decide) (by decide)).1

/-- C5: after `Generate`, every pixel of the outer wallThickness-pixel border
of the grid has value 1; no open-path pixel lies in that border. -/
theorem C5_border {w h cs wt : Int} {perms : Nat → List Nat}
    (hper : ∀ i : Nat, List.Perm (perms i) [0, 1, 2, 3])
    (hw : 0 < w) (hh : 0 < h) (hcs : 0 < cs) (hwt : 0 ≤ wt)
    {m mz : Maze} (hI : InvM m w h cs wt) (hgen : Generate m perms = some mz)
    (y x : Int) (hpx : pxIn w h cs wt y x)
    (hb : y < wt ∨ gridRows h cs wt - wt ≤ y ∨ x < wt ∨ gridCols w cs wt - wt ≤ x) :
    idx2 mz.Grid y x = some 1 ∧ ¬ openPx mz y x := by
  obtain ⟨hI2, ⟨E, hpost, -⟩, -⟩ := Generate_spec hper hw hh hcs hwt hI hgen
  have h1 := border_wall hcs hwt hI2 (fun y2 x2 => resetM_wall m y2 x2) hpost.char
    hpost.efacts y x hpx hb
  refine ⟨h1, ?_⟩
  intro hopen
  unfold openPx at hopen
  rw [h1] at hopen
  exact absurd (Option.some_injective _ hopen) (by decide)

theorem C5_border_witness : idx2 M1.Grid 0 0 = some 1 ∧ ¬ openPx M1 0 0 :=
  C5_border permsA_perm (by decide) (by decide) (by decide) (by decide)
    (NewMaze_InvM 2 2 1 1) (by decide) 0 0
    ⟨by decide, by decide, by decide, by decide⟩ (by decide)

/-- C6: for cols = 2, rows = 1, cellSize = 4, wallThickness = 1 and every
seed stream, the generated grid is 11 pixels wide and 6 pixels tall and has
exactly one open connection between its two cells. -/
theorem C6_scenario {perms : Nat → List Nat}
    (hper : ∀ i : Nat, List.Perm (perms i) [0, 1, 2, 3])
    {mz : Maze} (hgen : Generate (NewMaze 2 1 4 1) perms = some mz) :
    mz.Grid.length = 6 ∧ (∀ row ∈ mz.Grid, row.length = 11) ∧
      openConnCount mz = 1 := by
  obtain ⟨hI2, -, -⟩ := Generate_spec hper (by decide) (by decide) (by decide)
    (by decide) (NewMaze_InvM 2 1 4 1) hgen
  obtain ⟨-, ⟨hgl, hgr⟩, -, -⟩ := hI2
  refine ⟨?_, ?_, ?_⟩
  · rw [hgl]
    decide
  · intro row hrow
    rw [hgr row hrow]
    decide
  · have hc := Generate_openConnCount hper (by decide) (by decide) (by decide)
      (by decide) (NewMaze_InvM 2 1 4 1) hgen
    rw [hc]
    decide

set_option maxRecDepth 40000 in
theorem C6_scenario_witness :
    M2.Grid.length = 6 ∧ (∀ row ∈ M2.Grid, row.length = 11) ∧
      openConnCount M2 = 1 :=
  C6_scenario permsA_perm (by decide)

/-- C7 (amended): called on an instance built from a zero-sized configuration
(cols = 0 or rows = 0), `Generate` does not complete as a no-op: its first
visited-matrix write `m.Visited[0][0] = true` indexes an empty matrix, and
the run fails (the Go program panics). -/
theorem C7_zero_size {w h cs wt : Int} (hzero : w = 0 ∨ h = 0)
    (perms : Nat → List Nat) :
    Generate (NewMaze w h cs wt) perms = none :=
  Generate_zero_none w h cs wt hzero perms

theorem C7_zero_size_witness : Generate (NewMaze 0 7 3 1) permsA = none :=
  C7_zero_size (Or.inl rfl) permsA

/-- C7 as stated fails: on this zero-sized configuration `Generate` does not
complete without error; the run reaches the panicking write and fails. -/
theorem C7_noop_counterexample : Generate (NewMaze 0 5 3 1) permsA = none := by
  decide

/-- C8: `Generate` changes only the grid contents, the visited flags and the
random source: the four configuration fields and the allocated shapes of the
grid and the visited matrix (outer length and every row length) are identical
before and after. -/
theorem C8_frame {m mz : Maze} {perms : Nat → List Nat}
    (hgen : Generate m perms = some mz) :
    mz.CellSize = m.CellSize ∧ mz.WallThickness = m.WallThickness ∧
    mz.Cols = m.Cols ∧ mz.Rows = m.Rows ∧
    mz.Grid.length = m.Grid.length ∧
    (∀ i : Nat, (mz.Grid.getD i []).length = (m.Grid.getD i []).length) ∧
    mz.Visited.length = m.Visited.length ∧
    (∀ i : Nat, (mz.Visited.getD i []).length = (m.Visited.getD i []).length) := by
  obtain ⟨f1, f2, f3, f4, ⟨d5a, d5b⟩, d6a, d6b⟩ := Generate_frame hgen
  exact ⟨f1, f2, f3, f4, d5a, d5b, d6a, d6b⟩

theorem C8_frame_witness : M1.CellSize = (NewMaze 2 2 1 1).CellSize :=
  (@C8_frame (NewMaze 2 2 1 1) M1 permsA (by decide)).1

/-- C9: `Generate` terminates successfully on every positive configuration,
and recursion depth rows*cols already suffices: the fuel-indexed `dfs`
completes at fuel rows*cols with the same result. -/
theorem C9_termination {w h cs wt : Int} {perms : Nat → List Nat}
    (hper : ∀ i : Nat, List.Perm (perms i) [0, 1, 2, 3])
    (hw : 0 < w) (hh : 0 < h) (hcs : 0 < cs) (hwt : 0 ≤ wt)
    {m : Maze} (hI : InvM m w h cs wt) :
    ∃ mz : Maze, Generate m perms = some mz ∧
      dfs perms (h.toNat * w.toNat) (resetM m) 0 0 = some mz := by
  obtain ⟨mz, E, hg, -, hd, -, -, -, -, -⟩ :=
    Generate_main perms hper hw hh hcs hwt hI
  exact ⟨mz, hg, hd⟩

theorem C9_termination_witness :
    ∃ mz : Maze, Generate (NewMaze 2 2 1 1) permsA = some mz ∧
      dfs permsA 4 (resetM (NewMaze 2 2 1 1)) 0 0 = some mz :=
  C9_termination permsA_perm (by decide) (by decide) (by decide) (by decide)
    (NewMaze_InvM 2 2 1 1)

/-- C10: on every positive configuration the defensive bounds guards on the
pixel writes of `dfs` never reject a write: the checked run `GenerateChk`,
which fails exactly where the source would skip an out-of-bounds pixel,
agrees with the normal run, and the run completes. -/
theorem C10_guards {w h cs wt : Int} {perms : Nat → List Nat}
    (hper : ∀ i : Nat, List.Perm (perms i) [0, 1, 2, 3])
    (hw : 0 < w) (hh : 0 < h) (hcs : 0 < cs) (hwt : 0 ≤ wt)
    {m : Maze} (hI : InvM m w h cs wt) :
    GenerateChk m perms = Generate m perms ∧
      ∃ mz : Maze, Generate m perms = some mz := by
  obtain ⟨mz, E, hg, hgc, -, -, -, -, -, -⟩ :=
    Generate_main perms hper hw hh hcs hwt hI
  exact ⟨by rw [hg, hgc], mz, hg⟩

theorem C10_guards_witness :
    GenerateChk (NewMaze 2 2 1 1) permsA = Generate (NewMaze 2 2 1 1) permsA :=
  (C10_guards permsA_perm (by decide) (by decide) (by decide) (by decide)
    (NewMaze_InvM 2 2 1 1)).1
